import Mathlib

/-!
# Verification of the ShotgunLibrary version-resolution and filter-cascade core

This file is a shallow embedding in Lean 4 of the core of the
ShotgunLibrary panel (`shotgun_data_manager.py` and `ui.py`, snapshot
`26.01.23PM`): the catalog resolver (path normalization, categorization,
version-number extraction, latest-per-key selection, failure policy) and
the cascading filter engine (format / sub-asset / version tiers with
sticky selection and display-code rewriting).

Python values that can reach the path fields are modelled by `PyVal`;
Python's `str.strip`, `ast.literal_eval`, the regular expressions used by
the source, and the Qt combo-box state transitions are modelled explicitly
below, each next to the function that uses it.  Machine integers do not
occur (Python integers are unbounded), so `Nat`/`Int` are used directly.
-/

set_option maxRecDepth 10000

namespace Shotgun

/-- A Python value as it can appear in the `sg_path_to_geometry` field of a
record returned by the external store: a string, a list, a tuple, an int,
a bool, or `None`.  (`pynone` also stands in for any other non-sequence,
non-string object, since only the `isinstance` tests of the source matter
for those.) -/
inductive PyVal where
  | str (s : String)
  | list (xs : List PyVal)
  | tuple (xs : List PyVal)
  | int (n : Int)
  | bool (b : Bool)
  | pynone

mutual
/-- Size measure used as recursion fuel for the normalizer: a string
counts its characters plus one, a sequence counts one plus its elements. -/
def PyVal.size : PyVal → Nat
  | .str s => s.length + 1
  | .list xs => 1 + PyVal.sizeList xs
  | .tuple xs => 1 + PyVal.sizeList xs
  | .int _ => 1
  | .bool _ => 1
  | .pynone => 1

/-- Sum of the sizes of a list of Python values. -/
def PyVal.sizeList : List PyVal → Nat
  | [] => 0
  | v :: vs => PyVal.size v + PyVal.sizeList vs
end

/-! ## Python string primitives

The source calls `str.strip()` (whitespace), `str.strip('\'" ')`
(quotes and spaces), `str.startswith`/`endswith`, `str.split`,
`str.lower`.  All are modelled on `List Char` and wrapped on `String`
so that every definition evaluates by `decide`/`rfl`. -/

/-- The characters removed by Python's argumentless `str.strip()`. -/
def isPySpace (c : Char) : Bool :=
  c = ' ' || c = '\t' || c = '\n' || c = '\r' || c = Char.ofNat 11 || c = Char.ofNat 12

/-- Strip all characters satisfying `p` from both ends of a character list
(the semantics of Python's `str.strip(chars)`). -/
def stripBoth (p : Char → Bool) (l : List Char) : List Char :=
  (l.dropWhile p).rdropWhile p

/-- Python `s.strip()` — remove whitespace from both ends. -/
def pyStrip (s : String) : String := ⟨stripBoth isPySpace s.data⟩

/-- The characters removed by the source's `str.strip('\'" ')`. -/
def isQuoteSpace (c : Char) : Bool := c = '\'' || c = '"' || c = ' '

/-- Python `s.strip('\'" ')` — remove quotes and spaces from both ends. -/
def stripQuoteSpace (s : String) : String := ⟨stripBoth isQuoteSpace s.data⟩

/-! ## `ast.literal_eval`, modelled

`ui._flatten_and_clean_paths` and `find_files` call `ast.literal_eval` on
strings that look like sequence literals.  The parser below models
`ast.literal_eval` on the literal shapes that can occur in a path field:
quoted strings (backslashes are kept verbatim, as they are in the
raw Windows paths stored in the field), lists, tuples, integers and the
keywords `None`/`True`/`False`; anything else fails, exactly as
`ast.literal_eval` raises on non-literals.  It is written with explicit
step fuel so that every run reduces inside the kernel; `2 * n + 2` steps
always suffice for an input of `n` characters because every other step
consumes at least one character. -/

/-- Skip leading whitespace (as Python's tokenizer does between tokens). -/
def skipWs (l : List Char) : List Char := l.dropWhile isPySpace

/-- Parse the body of a quoted string terminated by the quote `q`;
returns the content and the remaining characters. -/
def parseQuoted (q : Char) : List Char → Option (List Char × List Char)
  | [] => none
  | c :: cs =>
    if c = q then some ([], cs)
    else
      match parseQuoted q cs with
      | some (content, rest) => some (c :: content, rest)
      | none => none

/-- Numeric value of a run of decimal digits (Python `int(...)`). -/
def digitsToNat (ds : List Char) : Nat :=
  ds.foldl (fun n c => n * 10 + (c.toNat - 48)) 0

/-- A literal keyword must not be followed by an identifier character. -/
def keywordBoundary : List Char → Bool
  | [] => true
  | c :: _ => !(c.isAlphanum || c = '_')

/-- Parse a comma-separated sequence of values up to the closing bracket
`close`, given a parser `pv` for one value.  Trailing commas are accepted,
as they are by `ast.literal_eval`. -/
def parseItemsF (pv : List Char → Option (PyVal × List Char)) :
    Nat → Char → List Char → Option (List PyVal × List Char)
  | 0, _, _ => none
  | fuel + 1, close, l =>
    match skipWs l with
    | [] => none
    | c :: cs =>
      if c = close then some ([], cs)
      else
        match pv (c :: cs) with
        | none => none
        | some (v, rest) =>
          match skipWs rest with
          | ',' :: cs2 =>
            match parseItemsF pv fuel close cs2 with
            | some (vs, rest2) => some (v :: vs, rest2)
            | none => none
          | d :: cs2 => if d = close then some ([v], cs2) else none
          | [] => none

/-- Parse one Python literal value from the front of the input. -/
def parseVal : Nat → List Char → Option (PyVal × List Char)
  | 0, _ => none
  | fuel + 1, l =>
    match skipWs l with
    | [] => none
    | c :: cs =>
      if c = '\'' || c = '"' then
        match parseQuoted c cs with
        | some (content, rest) => some (.str ⟨content⟩, rest)
        | none => none
      else if c = '[' then
        match parseItemsF (fun m => parseVal fuel m) fuel ']' cs with
        | some (vs, rest) => some (.list vs, rest)
        | none => none
      else if c = '(' then
        match parseItemsF (fun m => parseVal fuel m) fuel ')' cs with
        | some (vs, rest) => some (.tuple vs, rest)
        | none => none
      else if c.isDigit then
        some (.int (digitsToNat ((c :: cs).takeWhile Char.isDigit)),
              (c :: cs).dropWhile Char.isDigit)
      else if c = '-' then
        match cs with
        | d :: _ =>
          if d.isDigit then
            some (.int (-(digitsToNat (cs.takeWhile Char.isDigit) : Int)),
                  cs.dropWhile Char.isDigit)
          else none
        | [] => none
      else if ['N', 'o', 'n', 'e'].isPrefixOf (c :: cs) && keywordBoundary ((c :: cs).drop 4) then
        some (.pynone, (c :: cs).drop 4)
      else if ['T', 'r', 'u', 'e'].isPrefixOf (c :: cs) && keywordBoundary ((c :: cs).drop 4) then
        some (.bool true, (c :: cs).drop 4)
      else if ['F', 'a', 'l', 's', 'e'].isPrefixOf (c :: cs) && keywordBoundary ((c :: cs).drop 5) then
        some (.bool false, (c :: cs).drop 5)
      else none

/-- The raw result of `ast.literal_eval`: parse one value and require that
only whitespace remains. -/
def literalEvalRaw (s : String) : Option PyVal :=
  match parseVal (2 * s.length + 2) s.data with
  | some (v, rest) => if (skipWs rest).isEmpty then some v else none
  | none => none

/-- Model of `ast.literal_eval`.  The result of evaluating a literal is
never larger (in `PyVal.size`) than the literal text itself: every string
character of the result costs at least one source character and every
nesting level costs its two brackets.  The final guard records this bound
explicitly so that the normalizer's recursion below is evidently
decreasing; it never fires on an actual parser output. -/
def literal_eval (s : String) : Option PyVal :=
  match literalEvalRaw s with
  | some v => if v.size ≤ s.length then some v else none
  | none => none

/-! ## Path normalization: `ui._flatten_and_clean_paths`

```python
def _flatten_and_clean_paths(self, data):
    if isinstance(data, str):
        data = data.strip()
        if (data.startswith('[') and data.endswith(']')) or
           (data.startswith('(') and data.endswith(')')):
            try: return self._flatten_and_clean_paths(ast.literal_eval(data))
            except: return [data.strip('\'" ')]
        else: return [data.strip('\'" ')]
    elif isinstance(data, (list, tuple)):
        l=[]; [l.extend(self._flatten_and_clean_paths(i)) for i in data]; return l
    return []
```

The recursion is written with `PyVal.size` as structural fuel; by
`literal_eval_size` every recursive call strictly decreases the size, so
the fuelled function with `size` fuel is the exact (total) semantics of
the Python recursion. -/

/-- Model: `data.startswith('[') and data.endswith(']') or ...` from the source. -/
def looksLikeSeqLiteral (s : String) : Bool :=
  (s.data.head? == some '[' && s.data.getLast? == some ']') ||
  (s.data.head? == some '(' && s.data.getLast? == some ')')

/-- Fuelled normalizer; `fuel ≥ size` always suffices. -/
def flattenFuel : Nat → PyVal → List String
  | 0, _ => []
  | fuel + 1, v =>
    match v with
    | .str s0 =>
      let d := pyStrip s0
      if looksLikeSeqLiteral d then
        match literal_eval d with
        | some t => flattenFuel fuel t
        | none => [stripQuoteSpace d]
      else [stripQuoteSpace d]
    | .list xs => (xs.map (fun x => flattenFuel fuel x)).flatten
    | .tuple xs => (xs.map (fun x => flattenFuel fuel x)).flatten
    | _ => []

/-- Model: `ui._flatten_and_clean_paths`. -/
def _flatten_and_clean_paths (v : PyVal) : List String :=
  flattenFuel v.size v

/-! ## Format tokens: `ui._get_file_format`

```python
def _get_file_format(self, path):
    if not path or not isinstance(path, str): return "unknown"
    if path.endswith('.bgeo.sc'): return "bgeo.sc"
    return path.split('.')[-1] if '.' in path else "unknown"
```
-/

/-- Python `str.split(sep)` for a one-character separator. -/
def splitOnChar (sep : Char) : List Char → List (List Char)
  | [] => [[]]
  | c :: rest =>
    if c = sep then [] :: splitOnChar sep rest
    else
      match splitOnChar sep rest with
      | [] => [[c]]
      | g :: gs => (c :: g) :: gs

/-- Model: `ui._get_file_format`: the file-format token of one path value. -/
def _get_file_format : PyVal → String
  | .str s =>
    if s.data.isEmpty then ("unknown")
    else if (".bgeo.sc").data.isSuffixOf s.data then ("bgeo.sc")
    else if s.data.contains '.' then ⟨(splitOnChar '.' s.data).getLastD []⟩
    else ("unknown")
  | _ => "unknown"

/-- The spec's reading of "the path's file extension": the suffix of the
path after its last dot, written independently of the Python
`split('.')[-1]` idiom used by the source. -/
def extAfterLastDot (s : String) : String :=
  ⟨(s.data.reverse.takeWhile (fun c => c ≠ '.')).reverse⟩

/-! ## Version-number extraction and display-code rewriting

Regular expressions of the source, as explicit scanners:
`_v(\d+)` (in `_get_version_number` and the `re.sub(r'_v\d+', ...)`
rewriting), and `[/_](v\d+)` (in `_extract_version_from_path`).
`re.search` tries each start position from the left; at a position,
`\d+` takes the maximal digit run. -/

/-- Does `_v\d+` match at the head of the input?  If so, return the
maximal digit run and the suffix after it. -/
def splitVAt : List Char → Option (List Char × List Char)
  | c1 :: c2 :: rest =>
    if c1 = '_' ∧ c2 = 'v' then
      let ds := rest.takeWhile Char.isDigit
      if ds.isEmpty then none else some (ds, rest.dropWhile Char.isDigit)
    else none
  | _ => none

/-- Leftmost match of `_v\d+`: the prefix before the match, the digit run,
and the suffix after the digits. -/
def splitFirstV : List Char → Option (List Char × List Char × List Char)
  | [] => none
  | c :: rest =>
    match splitVAt (c :: rest) with
    | some (ds, suf) => some ([], ds, suf)
    | none =>
      match splitFirstV rest with
      | some (a, ds, suf) => some (c :: a, ds, suf)
      | none => none

/-- Model: `shotgun_data_manager._get_version_number`:

```python
match = re.search(r'_v(\d+)', version_code)
return int(match.group(1)) if match else 0
```
-/
def _get_version_number (version_code : String) : Nat :=
  match splitFirstV version_code.data with
  | some (_, ds, _) => digitsToNat ds
  | none => 0

/-- Model: `re.sub(r'_v\d+', f'_{pv}', orig, 1)` from `_update_dependent_filters`:
replace the first `_v<digits>` occurrence of `orig` with `_` followed by
`pv` (where `pv` is a captured `v<digits>` group). -/
def subFirstVersion (orig : String) (pv : String) : String :=
  match splitFirstV orig.data with
  | some (a, _, suf) => ⟨a ++ '_' :: (pv.data ++ suf)⟩
  | none => orig

/-- Does `[/_](v\d+)` match at the head?  If so return the captured group
`v<digits>`. -/
def matchPathVAt : List Char → Option (List Char)
  | c1 :: c2 :: rest =>
    if (c1 = '/' ∨ c1 = '_') ∧ c2 = 'v' then
      let ds := rest.takeWhile Char.isDigit
      if ds.isEmpty then none else some ('v' :: ds)
    else none
  | _ => none

/-- Leftmost match of `[/_](v\d+)` over the whole input. -/
def findPathV : List Char → Option (List Char)
  | [] => none
  | c :: rest =>
    match matchPathVAt (c :: rest) with
    | some g => some g
    | none => findPathV rest

/-- Model: `ui._extract_version_from_path`:

```python
m = re.search(r'[/_](v\d+)', str(path))
return m.group(1) if m else None
```
-/
def _extract_version_from_path (path : String) : Option String :=
  (findPathV path.data).map (fun g => (⟨g⟩ : String))

/-! ## Categorization: `shotgun_data_manager._categorize_version` -/

/-- Python `str.lower()` (ASCII case fold suffices for the codes here). -/
def lowerStr (s : String) : String := ⟨s.data.map Char.toLower⟩

/-- The fixed asset-task tokens, in declared order. -/
def assetTaskTokens : List String :=
  ["mdl", "shd", "rig", "txt", "cgfx-setup", "cncpt", "assy"]

/-- The fixed shot-task tokens, in declared order. -/
def shotTaskTokens : List String :=
  ["anim", "cgfx", "comp", "layout", "lgt", "mm", "matp", "paint", "roto", "assy"]

/-- Model: `re.search('(t1|t2|…)', s)`: positions are scanned from the left and at
each position the alternatives are tried in declared order, so the token
whose occurrence starts leftmost wins (declared order breaks ties only at
one and the same start position). -/
def reSearchAlt (tokens : List String) : List Char → Option String
  | [] => none
  | c :: rest =>
    match tokens.find? (fun t => t.data.isPrefixOf (c :: rest)) with
    | some t => some t
    | none => reSearchAlt tokens rest

/-- The `entity` field of a record: a dictionary with `type` and `id`
keys (either may be missing, `dict.get` then yields `None`). -/
structure EntityRef where
  etype : Option String
  eid : Option Int
  deriving DecidableEq, Repr

/-- Model: `shotgun_data_manager._categorize_version`:

```python
entity_type = version_data.get("entity", {}).get("type", "")
code = version_data.get("code", "").lower()
if entity_type == "Asset":
    match = re.search(r'(mdl|shd|rig|txt|cgfx-setup|cncpt|assy)', code)
    version_data["category"] = match.group(1) if match else "asset_unknown"
elif entity_type == "Shot":
    match = re.search(r'(anim|cgfx|comp|layout|lgt|mm|matp|paint|roto|assy)', code)
    version_data["category"] = match.group(1) if match else "shot_unknown"
```

Returns the category written into the record, `none` when the entity type
is neither `Asset` nor `Shot` (the source then leaves the key absent). -/
def _categorize_version (entity : Option EntityRef) (code : String) : Option String :=
  let entity_type := match entity with
    | some e => e.etype.getD ("")
    | none => ""
  let lcode := lowerStr code
  if entity_type = "Asset" then
    some ((reSearchAlt assetTaskTokens lcode.data).getD ("asset_unknown"))
  else if entity_type = "Shot" then
    some ((reSearchAlt shotTaskTokens lcode.data).getD ("shot_unknown"))
  else none

/-- Index of the first occurrence of `t` as a contiguous substring. -/
def substrPos (t : List Char) : List Char → Option Nat
  | [] => if t.isEmpty then some 0 else none
  | c :: rest =>
    if t.isPrefixOf (c :: rest) then some 0
    else (substrPos t rest).map (· + 1)

/-- The claim's reading of categorization: try the tokens in declared
priority order and return the first that occurs anywhere as a substring. -/
def priorityTokenSearch (tokens : List String) (l : List Char) : Option String :=
  tokens.find? (fun t => (substrPos t.data l).isSome)

/-! ## Python `sorted` / `set`, as used by the cascade -/

/-- Insert `a` after every element `b` with `le b a` (stable insertion). -/
def insertLe {α : Type} (le : α → α → Bool) (a : α) : List α → List α
  | [] => [a]
  | b :: bs => if le b a then b :: insertLe le a bs else a :: b :: bs

/-- Stable sort by the boolean relation `le` — the semantics of Python's
stable `sorted`/`list.sort` for a total preorder. -/
def pySortBy {α : Type} (le : α → α → Bool) (l : List α) : List α :=
  l.foldl (fun acc a => insertLe le a acc) []

/-- Code-point lexicographic order on strings (Python `str` comparison). -/
def charListLe : List Char → List Char → Bool
  | [], _ => true
  | _ :: _, [] => false
  | a :: as, b :: bs => if a < b then true else if b < a then false else charListLe as bs

def strLe (a b : String) : Bool := charListLe a.data b.data

/-- Model: `sorted(list(set(...)))`: duplicates removed (keeping first
occurrences — the choice is invisible after sorting) and sorted. -/
def dedupFirst {α : Type} [BEq α] (l : List α) : List α :=
  l.foldl (fun acc a => if acc.contains a then acc else acc ++ [a]) []

/-! ## The catalog resolver: `shotgun_data_manager.find_files`

Records, the latest-per-key fold (a Python `dict` in insertion order,
modelled as an association list), the thumbnail-name helpers, the external
store, the server-side filter construction, and the full entry point. -/

/-- One raw `Version` record as returned by `sg.find("Version", ...)`.
Only the fields that the resolver reads are modelled; `code` and `image`
are modelled as present (`""` models an absent/empty image, as
`v.get("image", "")` produces), `entity` may be absent. -/
structure SgVersion where
  vid : Int
  code : String
  sg_path_to_geometry : PyVal
  image : String
  entity : Option EntityRef
  created_at : Int

/-- A record after `find_files`' in-place normalization of the path field
and categorization (the `category` key the source writes into the dict). -/
structure CatVersion where
  vid : Int
  code : String
  sg_path_to_geometry : PyVal
  image : String
  entity : Option EntityRef
  created_at : Int
  category : Option String

/-- The grouping key of the latest-selection:
`(ent.get("type"), ent.get("id"), v.get("category"))`. -/
abbrev LatestKey := Option String × Option Int × Option String

def catKey (v : CatVersion) : LatestKey :=
  (v.entity.bind EntityRef.etype, v.entity.bind EntityRef.eid, v.category)

/-- Keyed lookup in the insertion-ordered association list (`key in latest`
/ `latest.get(key)`). -/
def findKey (k : LatestKey) : List (LatestKey × CatVersion) → Option CatVersion
  | [] => none
  | (k2, w) :: rest => if k2 = k then some w else findKey k rest

/-- Model: `latest[key] = v` for an existing key: the entry keeps its position. -/
def replaceKey (k : LatestKey) (v : CatVersion) :
    List (LatestKey × CatVersion) → List (LatestKey × CatVersion)
  | [] => []
  | (k2, w) :: rest =>
    if k2 = k then (k2, v) :: rest else (k2, w) :: replaceKey k v rest

/-- One iteration of the source's latest-selection loop:

```python
key = (ent.get("type"), ent.get("id"), v.get("category"))
curr = self._get_version_number(v.get("code", ""))
exist = self._get_version_number(latest.get(key, {}).get("code", ""))
if key not in latest or curr > exist: latest[key] = v
```
-/
def latestStep (acc : List (LatestKey × CatVersion)) (v : CatVersion) :
    List (LatestKey × CatVersion) :=
  let k := catKey v
  match findKey k acc with
  | none => acc ++ [(k, v)]
  | some w =>
    if _get_version_number w.code < _get_version_number v.code
    then replaceKey k v acc
    else acc

/-- Model: `list(latest.values())` after folding the whole batch. -/
def selectLatest (vs : List CatVersion) : List CatVersion :=
  (vs.foldl latestStep []).map Prod.snd

/-! ### Thumbnail-name helpers (needed by the `find_files` pipeline) -/

/-- The literal `filename%3D%22` of the URL regex. -/
def filenameMarker : List Char := "filename%3D%22".data

/-- Leftmost match of `filename%3D%22([^%]+?)%22`: the lazy group extends
to the first `%`, which must start the closing `%22`. -/
def findFilenameGroup : List Char → Option (List Char)
  | [] => none
  | c :: rest =>
    if filenameMarker.isPrefixOf (c :: rest) then
      let after := (c :: rest).drop filenameMarker.length
      let run := after.takeWhile (fun x => x ≠ '%')
      if !run.isEmpty && ("%22".data.isPrefixOf (after.drop run.length))
      then some run
      else findFilenameGroup rest
    else findFilenameGroup rest

/-- The characters kept by `re.sub(r'[^a-zA-Z0-9_-]', '_', ...)`. -/
def isWordDash (c : Char) : Bool := c.isAlpha || c.isDigit || c = '_' || c = '-'

/-- Model: `shotgun_data_manager.extract_filename_from_url`. -/
def extract_filename_from_url (url : String) : String :=
  if url.data.isEmpty then ("No Image")
  else
    match findFilenameGroup url.data with
    | some g =>
      ⟨(g.takeWhile (fun c => c ≠ '.')).map (fun c => if isWordDash c then c else '_')⟩
    | none => "Unparsable URL"

/-- Does `_t(?:_\d+)?$` match here, i.e. is the whole remaining input
`_t` or `_t_<digits>`? -/
def thumbSuffixAt : List Char → Bool
  | '_' :: 't' :: rest =>
    match rest with
    | [] => true
    | '_' :: ds => !ds.isEmpty && ds.all Char.isDigit
    | _ => false
  | _ => false

def cleanThumbAux : List Char → List Char
  | [] => []
  | c :: rest => if thumbSuffixAt (c :: rest) then [] else c :: cleanThumbAux rest

/-- Model: `shotgun_data_manager._clean_shotgun_thumbnail_name`:
`re.sub(r'(_t(?:_\d+)?)$', '', filename)`. -/
def _clean_shotgun_thumbnail_name (filename : String) : String :=
  ⟨cleanThumbAux filename.data⟩

/-! ### The external store and the server-side query -/

/-- A sequence record (only `id` is requested). -/
structure SequenceRec where
  sid : Int

/-- A project record (`name`, `id`, `code` are requested). -/
structure ProjectRec where
  name : String
  pid : Int
  code : String

/-- A value in a server-side filter condition. -/
inductive SgFilterVal where
  | str (s : String)
  | projectRef (pid : Int)
  | seqRef (sid : Int)
  | null

/-- A server-side filter: a `[field, op, value]` condition or the
`{"filter_operator": "and", ...}` group the source builds. -/
inductive SgFilter where
  | cond (fieldName op : String) (value : SgFilterVal)
  | andGroup (conds : List SgFilter)

/-- The authenticated store handle (`self.sg`): the `find`/`find_one`
calls used by the resolver, each able to fail.  An `Except.error` models
any exception raised by the query. -/
structure SgConnection where
  findVersions : List SgFilter → List String → Except String (List SgVersion)
  findOneSequence : List SgFilter → List String → Except String (Option SequenceRec)
  findProjects : List SgFilter → List String → Except String (List ProjectRec)

/-- Model: `shotgun_data_manager._get_category_abbreviation`. -/
def _get_category_abbreviation (category_name : String) : String :=
  let k := lowerStr category_name
  if k = "characters" then ("chr")
  else if k = "environments" then ("env")
  else if k = "props" then ("prp")
  else if k = "vehicles" then ("veh")
  else if k = "cgfx" then ("cgfx")
  else ("")

/-- The field list `find_files` requests. -/
def find_files_fields : List String :=
  ["id", "code", "content", "sg_path_to_geometry", "image", "entity",
   "entity.Shot.sg_sequence", "entity.Asset.sg_asset_type", "created_at", "user",
   "description", "entity.Asset.description", "entity.Shot.description"]

/-- The two base filters of `find_files`. -/
def baseFilters (pid : Int) : List SgFilter :=
  [.cond ("project") "is" (.projectRef pid),
   .cond ("sg_path_to_geometry") "is_not" .null]

/-- The filter list `find_files` sends to the store, including the
`try: ... except: pass` context block (an exception mid-block keeps the
filters appended before it). -/
def find_files_filters (sg : Option SgConnection) (pid : Int)
    (tab_context entity_type : String) : List SgFilter :=
  let filters := baseFilters pid
  if tab_context ≠ "" ∧ entity_type ≠ "" then
    let parts := (splitOnChar '/' tab_context.data).map (fun g => (⟨g⟩ : String))
    if parts.length = 2 then
      let type_part := parts.headD ("")
      let category_part := (parts.drop 1).headD ("")
      if entity_type = "Asset" then
        let filters := filters ++ [.cond ("entity") "type_is" (.str ("Asset"))]
        let abbr := _get_category_abbreviation category_part
        let code_filters :=
          (if abbr ≠ "" then [SgFilter.cond ("code") "contains" (.str abbr)] else []) ++
          [SgFilter.cond ("code") "contains" (.str type_part)]
        if code_filters.length = 1 then filters ++ code_filters
        else filters ++ [.andGroup code_filters]
      else if entity_type = "Shot" then
        let filters := filters ++ [.cond ("entity") "type_is" (.str ("Shot"))]
        match sg with
        | none => filters
        | some st =>
          match st.findOneSequence
              [.cond ("project") "is" (.projectRef pid),
               .cond ("code") "is" (.str category_part)] ["id"] with
          | .error _ => filters
          | .ok seq =>
            let filters := match seq with
              | some sq => filters ++ [.cond ("entity.Shot.sg_sequence") "is" (.seqRef sq.sid)]
              | none => filters
            filters ++ [.cond ("code") "contains" (.str type_part)]
      else filters
    else filters
  else filters

/-- The path-field normalization `find_files` performs in place:

```python
geo = version.get('sg_path_to_geometry')
if isinstance(geo, str):
    try: version[...] = ast.literal_eval(geo) if geo.strip() else []
    except: version[...] = [geo.strip()]
elif geo is None: version[...] = []
if not isinstance(version[...], list): version[...] = [version[...]]
```
-/
def find_files_norm_geo (geo : PyVal) : PyVal :=
  let g1 : PyVal := match geo with
    | .str s =>
      if (pyStrip s).data.isEmpty then .list []
      else
        match literal_eval s with
        | some t => t
        | none => .list [.str (pyStrip s)]
    | .pynone => .list []
    | g => g
  match g1 with
  | .list xs => .list xs
  | g => .list [g]

/-- Path normalization plus categorization of one record (the two in-place
updates `find_files` applies to every fetched record). -/
def processVersion (v : SgVersion) : CatVersion :=
  { vid := v.vid, code := v.code,
    sg_path_to_geometry := find_files_norm_geo v.sg_path_to_geometry,
    image := v.image, entity := v.entity, created_at := v.created_at,
    category := _categorize_version v.entity v.code }

/-- The final in-place rewrite of the `image` field of each kept record. -/
def fixupImage (v : CatVersion) : CatVersion :=
  { v with image := _clean_shotgun_thumbnail_name (extract_filename_from_url v.image) }

/-- Model: `shotgun_data_manager.find_files`, end to end.  A `none` handle models
a failed login (`self.sg is None`): the attribute access raises and the
bare `except` returns `[]`. -/
def find_files (sg : Option SgConnection) (pid : Int)
    (tab_context entity_type : String) : List CatVersion :=
  if pid = 0 then []
  else
    let filters := find_files_filters sg pid tab_context entity_type
    match sg with
    | none => []
    | some st =>
      match st.findVersions filters find_files_fields with
      | .error _ => []
      | .ok versions =>
        let processed := versions.map processVersion
        (selectLatest processed).map fixupImage

/-- Model: `shotgun_data_manager.get_active_projects`. -/
def get_active_projects (sg : Option SgConnection) : List ProjectRec :=
  match sg with
  | none => []
  | some st =>
    match st.findProjects [.cond ("sg_status") "is" (.str ("Active"))] ["name", "id", "code"] with
    | .error _ => []
    | .ok ps => ps

/-! ## The filter cascade: `ui.ShotgunFileManager`

The cascade state consists of the stored sibling history and three Qt
combo boxes.  Qt semantics relevant here: `clear()` empties a combo and
sets its index to `-1` (current text `""`); adding items to an *empty*
combo makes the first inserted item current (index 0); non-editable
`setCurrentText(t)` selects the first item with text `t` and does nothing
when `t` is absent.  `blockSignals` only suppresses change notifications;
within the modelled functions every dependent recomputation is invoked
explicitly, so signals need no separate modelling. -/

/-- A history record as fetched by `_get_version_history_from_shotgun`
(fields `id`, `code`, `sg_path_to_geometry`, `entity`, `created_at`). -/
structure RVersion where
  vid : Int
  code : String
  sg_path_to_geometry : PyVal
  entity : Option EntityRef
  created_at : Int

/-- A history record after `_query_and_populate_all_filters` replaced its
path field by the flattened string list and set `asset_name = None`. -/
structure NVersion where
  vid : Int
  code : String
  paths : List String
  created_at : Int
  asset_name : Option String
  deriving DecidableEq, Repr

/-- A Qt combo box as the cascade observes it. -/
structure Combo where
  items : List String
  sel : Option Nat
  deriving DecidableEq, Repr

/-- A cleared combo box. -/
def Combo.empty : Combo := ⟨[], none⟩

/-- Model: `currentText()`: `""` when nothing is selected. -/
def Combo.currentText (c : Combo) : String :=
  match c.sel with
  | some i => c.items.getD i ("")
  | none => ""

/-- Model: `addItems`: Qt makes the first item inserted into an empty combo box
the current item. -/
def Combo.addItems (c : Combo) (xs : List String) : Combo :=
  { items := c.items ++ xs,
    sel := match c.sel with
      | some i => some i
      | none => if c.items.isEmpty && !xs.isEmpty then some 0 else none }

/-- Model: `findText(t) != -1`. -/
def Combo.hasText (c : Combo) (t : String) : Bool := c.items.contains t

/-- Model: `setCurrentText(t)` on a non-editable combo. -/
def Combo.setCurrentText (c : Combo) (t : String) : Combo :=
  match c.items.findIdx? (fun x => x == t) with
  | some i => { c with sel := some i }
  | none => c

/-- The version combo (`material_combo`), which also stores each item's
`userData` record. -/
structure DataCombo where
  items : List (String × NVersion)
  sel : Option Nat
  deriving DecidableEq, Repr

def DataCombo.empty : DataCombo := ⟨[], none⟩

def DataCombo.currentText (c : DataCombo) : String :=
  match c.sel with
  | some i => ((c.items.get? i).map Prod.fst).getD ("")
  | none => ""

/-- Model: `currentData()`: the record attached to the selected item. -/
def DataCombo.currentData (c : DataCombo) : Option NVersion :=
  match c.sel with
  | some i => (c.items.get? i).map Prod.snd
  | none => none

/-- Model: `addItem(text, userData=...)`. -/
def DataCombo.addItem (c : DataCombo) (x : String × NVersion) : DataCombo :=
  { items := c.items ++ [x],
    sel := match c.sel with
      | some i => some i
      | none => if c.items.isEmpty then some 0 else none }

def DataCombo.hasText (c : DataCombo) (t : String) : Bool := c.items.any (fun x => x.1 == t)

def DataCombo.setCurrentText (c : DataCombo) (t : String) : DataCombo :=
  match c.items.findIdx? (fun x => x.1 == t) with
  | some i => { c with sel := some i }
  | none => c

/-- The cascade state owned by the panel. -/
structure UIState where
  current_version_history : List NVersion
  render_combo : Combo
  asset_filter_combo : Combo
  asset_filter_visible : Bool
  material_combo : DataCombo
  deriving DecidableEq, Repr

/-- Model: `ShotgunFileManager.NO_ASSET_FILTER_TAG`. -/
def NO_ASSET_FILTER_TAG : String := "不通过资产筛选"

/-- Does the record have at least one path of the given format token? -/
def hasFormat (fmt : String) (v : NVersion) : Bool :=
  v.paths.any (fun p => _get_file_format (.str p) == fmt)

/-- The display label built for one record in `_update_dependent_filters`:

```python
orig = v.get('code',''); disp = orig
p_fmt = next((p for p in paths if self._get_file_format(p)==fmt), None)
if p_fmt:
    pv = self._extract_version_from_path(p_fmt)
    if pv: disp = re.sub(r'_v\d+', f'_{pv}', orig, 1)
```
-/
def displayCode (fmt : String) (v : NVersion) : String :=
  match v.paths.find? (fun p => _get_file_format (.str p) == fmt) with
  | some p =>
    match _extract_version_from_path p with
    | some pv => subFirstVersion v.code pv
    | none => v.code
  | none => v.code

/-- Model: `ui._handle_cancel_selection`, restricted to the cascade state: hide
the sub-asset tier, clear all three combos, drop the history. -/
def _handle_cancel_selection (_s : UIState) : UIState :=
  { current_version_history := [],
    render_combo := Combo.empty,
    asset_filter_combo := Combo.empty,
    asset_filter_visible := false,
    material_combo := DataCombo.empty }

/-- Model: `vers_in_fmt`: history records with at least one path of the format. -/
def versInFmt (fmt : String) (hist : List NVersion) : List NVersion :=
  hist.filter (fun v => hasFormat fmt v)

/-- Model: `assets = sorted(list(set(...)))` over the records of the format. -/
def subAssetChoices (fmt : String) (hist : List NVersion) : List String :=
  pySortBy strLe (dedupFirst ((versInFmt fmt hist).filterMap NVersion.asset_name))

/-- The sub-asset narrowing of `_update_dependent_filters` (`final_vers`
before sorting): `sel_asset` is the visible sub-asset choice, `none` when
the tier is hidden, and the empty string (falsy) applies no narrowing. -/
def filterBySubAsset (sel_asset : Option String) (vs : List NVersion) : List NVersion :=
  match sel_asset with
  | some t =>
    if t = "" then vs
    else if t = NO_ASSET_FILTER_TAG then vs.filter (fun v => v.asset_name.isNone)
    else vs.filter (fun v => v.asset_name == some t)
  | none => vs

/-- Model: `final_vers` after the descending (stable) sort by `created_at`. -/
def finalVersions (sel_asset : Option String) (fmt : String)
    (hist : List NVersion) : List NVersion :=
  pySortBy (fun a b => decide (b.created_at ≤ a.created_at))
    (filterBySubAsset sel_asset (versInFmt fmt hist))

/-- The recomputed state of the sub-asset combo plus its visibility. -/
def subAssetComboAfter (prev : String) (assets : List String) : Combo × Bool :=
  if assets.isEmpty then (Combo.empty, false)
  else
    let a1 := (Combo.empty.addItems assets).addItems [NO_ASSET_FILTER_TAG]
    (if prev != "" then a1.setCurrentText prev else a1, true)

/-- Model: `ui._update_dependent_filters`. -/
def _update_dependent_filters (s : UIState) : UIState :=
  let fmt := s.render_combo.currentText
  if s.current_version_history.isEmpty then s
  else
    let assets := subAssetChoices fmt s.current_version_history
    let acv := subAssetComboAfter s.asset_filter_combo.currentText assets
    let ac := acv.1
    let visible := acv.2
    let sel_asset : Option String := if visible then some ac.currentText else none
    let final_vers := finalVersions sel_asset fmt s.current_version_history
    let mc := final_vers.foldl (fun c v => c.addItem (displayCode fmt v, v)) DataCombo.empty
    { s with asset_filter_combo := ac, asset_filter_visible := visible, material_combo := mc }

/-- The per-record normalization `_query_and_populate_all_filters`
performs (`v['sg_path_to_geometry'] = self._flatten_and_clean_paths(...)`
and `v['asset_name'] = None`). -/
def normalizeRecord (v : RVersion) : NVersion :=
  { vid := v.vid, code := v.code,
    paths := _flatten_and_clean_paths v.sg_path_to_geometry,
    created_at := v.created_at,
    asset_name := none }

/-- The derived format set (`fmts`), deduplicated and sorted as
`sorted(list(fmts))` presents it in the combo. -/
def availableFormats (hist : List NVersion) : List String :=
  pySortBy strLe
    (dedupFirst (hist.flatMap (fun v => v.paths.map (fun p => _get_file_format (.str p)))))

/-- Model: `ui._query_and_populate_all_filters`, parameterized by the history the
sibling-version fetch returned. -/
def _query_and_populate_all_filters (s : UIState) (fetched : List RVersion) : UIState :=
  let cur_fmt := s.render_combo.currentText
  let cur_ver := s.material_combo.currentText
  if fetched.isEmpty then _handle_cancel_selection s
  else
    let hist := fetched.map normalizeRecord
    let fmts := availableFormats hist
    let rc0 := Combo.empty.addItems fmts
    let rc := if cur_fmt != "" && rc0.hasText cur_fmt then rc0.setCurrentText cur_fmt else rc0
    let s1 : UIState := { s with current_version_history := hist, render_combo := rc }
    let s2 := _update_dependent_filters s1
    let mc := if cur_ver != "" && s2.material_combo.hasText cur_ver
              then s2.material_combo.setCurrentText cur_ver
              else s2.material_combo
    { s2 with material_combo := mc }

/-! ## Invariant of the latest-selection fold (claim C1) -/

/-- Version number of a record's code. -/
def vnumOf (v : CatVersion) : Nat := _get_version_number v.code

/-- The invariant carried through the latest-selection loop: every entry of
the accumulator holds its key, points at a record of the processed prefix
that strictly beats every earlier and weakly beats every later same-key
record, keys are unique, and every processed record's key is represented. -/
def LatestInv (processed : List CatVersion)
    (acc : List (LatestKey × CatVersion)) : Prop :=
  (∀ e ∈ acc, e.1 = catKey e.2 ∧
    ∃ l₁ l₂, processed = l₁ ++ e.2 :: l₂ ∧
      (∀ w ∈ l₁, catKey w = e.1 → vnumOf w < vnumOf e.2) ∧
      (∀ w ∈ l₂, catKey w = e.1 → vnumOf w ≤ vnumOf e.2)) ∧
  (acc.map Prod.fst).Nodup ∧
  (∀ w ∈ processed, ∃ e ∈ acc, e.1 = catKey w)

/-- The store handle whose every query fails. -/
def downConnection : SgConnection :=
  ⟨fun _ _ => .error ("down"), fun _ _ => .error ("down"), fun _ _ => .error ("down")⟩

/-- The spec's end-to-end dedup example: three same-key records with codes
`asset_mdl_v001`, `asset_mdl_v003`, `asset_mdl_v002`. -/
def latestExample : List CatVersion :=
  [⟨1, "asset_mdl_v001", .list [], "", some ⟨some ("Asset"), some 10⟩, 0, some ("mdl")⟩,
   ⟨2, "asset_mdl_v003", .list [], "", some ⟨some ("Asset"), some 10⟩, 1, some ("mdl")⟩,
   ⟨3, "asset_mdl_v002", .list [], "", some ⟨some ("Asset"), some 10⟩, 2, some ("mdl")⟩]

/-- The record the resolver retains from `latestExample` (the `v003` one). -/
def latestRetained : CatVersion :=
  ⟨2, "asset_mdl_v003", .list [], "", some ⟨some ("Asset"), some 10⟩, 1, some ("mdl")⟩

/-- The history record of the C7 witness: its tracked code (`x_v001`) is
stale relative to the `.usd` file on disk (`y_v003.usd`). -/
def witnessRecord : NVersion := ⟨2, "x_v001", ["p/y_v003.usd", "p/y.abc"], 7, none⟩

/-- Cascade state used in the C7 witness: the `.usd` format is selected. -/
def witnessState : UIState :=
  { current_version_history := [witnessRecord],
    render_combo := ⟨["abc", "usd"], some 1⟩,
    asset_filter_combo := Combo.empty,
    asset_filter_visible := false,
    material_combo := DataCombo.empty }

/-- State of the C3 counterexample: the format `"usd"` is currently
selected. -/
def stickyState : UIState :=
  { current_version_history := [],
    render_combo := ⟨["usd"], some 0⟩,
    asset_filter_combo := Combo.empty,
    asset_filter_visible := false,
    material_combo := DataCombo.empty }

/-- A new sibling history offering only the `"abc"` format. -/
def stickyFetched : List RVersion := [⟨1, "x_v001", .str ("p/file.abc"), none, 5⟩]

/-- A new sibling history still offering `"usd"` (and `"abc"`). -/
def stickyFetchedBoth : List RVersion :=
  [⟨1, "x_v001", .str ("p/file.abc"), none, 5⟩,
   ⟨2, "x_v002", .str ("['p/y_v003.usd', 'p/y.abc']"), none, 7⟩]

/-- The cascade selection-consistency invariant of claim C6. -/
def cascadeInv (s : UIState) : Prop :=
  (s.render_combo.currentText = "" ∨
    s.render_combo.currentText ∈
      s.current_version_history.flatMap
        (fun v => v.paths.map (fun p => _get_file_format (.str p)))) ∧
  (match s.material_combo.currentData with
   | some v =>
     v ∈ s.current_version_history ∧
     hasFormat s.render_combo.currentText v = true ∧
     (s.asset_filter_visible = true →
       (s.asset_filter_combo.currentText = "" ∨
        (s.asset_filter_combo.currentText = NO_ASSET_FILTER_TAG ∧ v.asset_name = none) ∨
        v.asset_name = some s.asset_filter_combo.currentText))
   | none => True)

theorem PyVal.size_pos (v : PyVal) : 0 < v.size := by
  cases v <;> simp [PyVal.size]

theorem PyVal.size_le_of_mem {v : PyVal} {vs : List PyVal} (h : v ∈ vs) :
    v.size ≤ PyVal.sizeList vs := by
  induction vs with
  | nil => cases h
  | cons w ws ih =>
    rcases List.mem_cons.1 h with rfl | h'
    · simp [PyVal.sizeList]
    · have := ih h'
      simp only [PyVal.sizeList]; omega

theorem stripBoth_length_le (p : Char → Bool) (l : List Char) :
    (stripBoth p l).length ≤ l.length := by
  unfold stripBoth
  have h1 : (l.dropWhile p).length ≤ l.length := (l.dropWhile_suffix p).length_le
  have h2 : ((l.dropWhile p).rdropWhile p).length ≤ (l.dropWhile p).length :=
    ( List.rdropWhile_prefix p (l.dropWhile p)).length_le
  omega

theorem pyStrip_length_le (s : String) : (pyStrip s).length ≤ s.length :=
  stripBoth_length_le isPySpace s.data

/-- A prefix of a front-clean list is front-clean. -/
theorem dropWhile_eq_self_of_isPrefixOf {p : Char → Bool} {m m' : List Char}
    (hm : m.dropWhile p = m) (hpre : m' <+: m) : m'.dropWhile p = m' := by
  cases m' with
  | nil => rfl
  | cons c cs =>
    cases m with
    | nil => exact absurd (List.eq_nil_of_prefix_nil hpre) (by simp)
    | cons d ds =>
      have hcd : c = d := by
        rcases hpre with ⟨t, ht⟩
        exact (List.cons.injEq _ _ _ _ ▸ ht : c = d ∧ _).1
      subst hcd
      by_cases hc : p c
      · rw [List.dropWhile_cons_of_pos hc] at hm
        have : (List.dropWhile p ds).length ≤ ds.length := (ds.dropWhile_suffix p).length_le
        have hlen := congrArg List.length hm
        simp at hlen
        omega
      · exact List.dropWhile_cons_of_neg hc

/-- Model: `stripBoth` is idempotent: once stripped, both ends are clean. -/
theorem stripBoth_idem (p : Char → Bool) (l : List Char) :
    stripBoth p (stripBoth p l) = stripBoth p l := by
  unfold stripBoth
  have h1 : ((l.dropWhile p).rdropWhile p).dropWhile p = (l.dropWhile p).rdropWhile p :=
    dropWhile_eq_self_of_isPrefixOf (List.dropWhile_idempotent p l)
      ( List.rdropWhile_prefix p (l.dropWhile p))
  rw [h1, List.rdropWhile_idempotent]

theorem stripQuoteSpace_idem (s : String) :
    stripQuoteSpace (stripQuoteSpace s) = stripQuoteSpace s := by
  simp [stripQuoteSpace, stripBoth_idem]

theorem literal_eval_size {s : String} {t : PyVal} (h : literal_eval s = some t) :
    t.size ≤ s.length := by
  unfold literal_eval at h
  rcases hr : literalEvalRaw s with _ | v
  · rw [hr] at h; cases h
  · rw [hr] at h
    by_cases hsz : v.size ≤ s.length
    · simp only [hsz, if_true] at h
      cases h; exact hsz
    · simp [hsz] at h

/-- The fuel is irrelevant above the size of the input. -/
theorem flattenFuel_congr :
    ∀ {f g : Nat} (v : PyVal), v.size ≤ f → v.size ≤ g →
      flattenFuel f v = flattenFuel g v := by
  intro f
  induction f with
  | zero =>
    intro g v hf _
    have := PyVal.size_pos v
    omega
  | succ f ih =>
    intro g v hf hg
    cases g with
    | zero =>
      have := PyVal.size_pos v
      omega
    | succ g =>
      cases v with
      | str s0 =>
        show flattenFuel (f + 1) (.str s0) = flattenFuel (g + 1) (.str s0)
        simp only [flattenFuel]
        by_cases hb : looksLikeSeqLiteral (pyStrip s0) = true
        · simp only [hb, if_true]
          rcases hp : literal_eval (pyStrip s0) with _ | t
          · rfl
          · have hsz : t.size ≤ s0.length :=
              le_trans (literal_eval_size hp) (pyStrip_length_le s0)
            have hs : (PyVal.str s0).size = s0.length + 1 := rfl
            rw [hs] at hf hg
            exact ih t (by omega) (by omega)
        · simp only [Bool.not_eq_true] at hb
          simp only [hb, Bool.false_eq_true, if_false]
      | list xs =>
        simp only [flattenFuel]
        have hx : ∀ x ∈ xs, flattenFuel f x = flattenFuel g x := by
          intro x hx
          have h1 : x.size ≤ PyVal.sizeList xs := PyVal.size_le_of_mem hx
          have h2 : (PyVal.list xs).size = 1 + PyVal.sizeList xs := rfl
          exact ih x (by omega) (by omega)
        rw [List.map_congr_left hx]
      | tuple xs =>
        simp only [flattenFuel]
        have hx : ∀ x ∈ xs, flattenFuel f x = flattenFuel g x := by
          intro x hx
          have h1 : x.size ≤ PyVal.sizeList xs := PyVal.size_le_of_mem hx
          have h2 : (PyVal.tuple xs).size = 1 + PyVal.sizeList xs := rfl
          exact ih x (by omega) (by omega)
        rw [List.map_congr_left hx]
      | int n => rfl
      | bool b => rfl
      | pynone => rfl

/-- Unfolding: a string that does not look like a sequence literal is
returned as a singleton, stripped of whitespace and then of quotes/spaces. -/
theorem flatten_str_plain (s : String) (h : looksLikeSeqLiteral (pyStrip s) = false) :
    _flatten_and_clean_paths (.str s) = [stripQuoteSpace (pyStrip s)] := by
  unfold _flatten_and_clean_paths
  show flattenFuel (s.length + 1) (.str s) = _
  simp only [flattenFuel, h, Bool.false_eq_true, if_false]

/-- Unfolding: a malformed sequence-literal string degrades to a singleton
containing the stripped raw string. -/
theorem flatten_str_malformed (s : String)
    (hb : looksLikeSeqLiteral (pyStrip s) = true)
    (hp : literal_eval (pyStrip s) = none) :
    _flatten_and_clean_paths (.str s) = [stripQuoteSpace (pyStrip s)] := by
  unfold _flatten_and_clean_paths
  show flattenFuel (s.length + 1) (.str s) = _
  simp only [flattenFuel, hb, if_true, hp]

/-- Unfolding: a well-formed sequence-literal string is normalized by
normalizing its parsed value. -/
theorem flatten_str_parsed (s : String) (t : PyVal)
    (hb : looksLikeSeqLiteral (pyStrip s) = true)
    (hp : literal_eval (pyStrip s) = some t) :
    _flatten_and_clean_paths (.str s) = _flatten_and_clean_paths t := by
  unfold _flatten_and_clean_paths
  show flattenFuel (s.length + 1) (.str s) = _
  have hstep : flattenFuel (s.length + 1) (.str s) = flattenFuel s.length t := by
    simp only [flattenFuel, hb, if_true, hp]
  rw [hstep]
  exact flattenFuel_congr t
    (le_trans (literal_eval_size hp) (pyStrip_length_le s)) (le_refl _)

/-- Unfolding: a native list is normalized elementwise and concatenated. -/
theorem flatten_list_eq (xs : List PyVal) :
    _flatten_and_clean_paths (.list xs) = xs.flatMap _flatten_and_clean_paths := by
  unfold _flatten_and_clean_paths
  show flattenFuel (1 + PyVal.sizeList xs) (.list xs) = _
  have h1 : 1 + PyVal.sizeList xs = PyVal.sizeList xs + 1 := by omega
  rw [h1]
  simp only [flattenFuel]
  rw [List.flatMap_def]
  congr 1
  apply List.map_congr_left
  intro x hx
  exact flattenFuel_congr x (PyVal.size_le_of_mem hx) (le_refl _)

/-- Unfolding: a native tuple is normalized elementwise and concatenated. -/
theorem flatten_tuple_eq (xs : List PyVal) :
    _flatten_and_clean_paths (.tuple xs) = xs.flatMap _flatten_and_clean_paths := by
  unfold _flatten_and_clean_paths
  show flattenFuel (1 + PyVal.sizeList xs) (.tuple xs) = _
  have h1 : 1 + PyVal.sizeList xs = PyVal.sizeList xs + 1 := by omega
  rw [h1]
  simp only [flattenFuel]
  rw [List.flatMap_def]
  congr 1
  apply List.map_congr_left
  intro x hx
  exact flattenFuel_congr x (PyVal.size_le_of_mem hx) (le_refl _)

/-- Every element the normalizer ever emits is a fixed point of the final
quote-and-space strip: this is the precise sense in which the output
consists of "trimmed path strings". -/
theorem flattenFuel_trimmed :
    ∀ (f : Nat) (v : PyVal) (e : String), e ∈ flattenFuel f v →
      stripQuoteSpace e = e := by
  intro f
  induction f with
  | zero => intro v e he; cases he
  | succ f ih =>
    intro v e he
    cases v with
    | str s0 =>
      simp only [flattenFuel] at he
      by_cases hb : looksLikeSeqLiteral (pyStrip s0) = true
      · rw [hb] at he
        simp only [if_true] at he
        rcases hp : literal_eval (pyStrip s0) with _ | t
        · rw [hp] at he
          simp only [List.mem_singleton] at he
          subst he
          exact stripQuoteSpace_idem _
        · rw [hp] at he
          exact ih t e he
      · simp only [Bool.not_eq_true] at hb
        rw [hb] at he
        simp only [Bool.false_eq_true, if_false, List.mem_singleton] at he
        subst he
        exact stripQuoteSpace_idem _
    | list xs =>
      simp only [flattenFuel, List.mem_flatten, List.mem_map] at he
      rcases he with ⟨l, ⟨x, hx, hl⟩, hel⟩
      subst hl
      exact ih x e hel
    | tuple xs =>
      simp only [flattenFuel, List.mem_flatten, List.mem_map] at he
      rcases he with ⟨l, ⟨x, hx, hl⟩, hel⟩
      subst hl
      exact ih x e hel
    | int n => cases he
    | bool b => cases he
    | pynone => cases he

/-- Values that are neither strings nor lists nor tuples normalize to `[]`. -/
theorem flatten_other_eq (v : PyVal)
    (hs : ∀ s, v ≠ .str s) (hl : ∀ xs, v ≠ .list xs) (ht : ∀ xs, v ≠ .tuple xs) :
    _flatten_and_clean_paths v = [] := by
  cases v with
  | str s => exact absurd rfl (hs s)
  | list xs => exact absurd rfl (hl xs)
  | tuple xs => exact absurd rfl (ht xs)
  | int n => rfl
  | bool b => rfl
  | pynone => rfl

theorem splitOnChar_ne_nil (sep : Char) (l : List Char) : splitOnChar sep l ≠ [] := by
  cases l with
  | nil => simp [splitOnChar]
  | cons c rest =>
    by_cases hc : c = sep
    · simp [splitOnChar, hc]
    · simp only [splitOnChar, hc, if_false]
      rcases h : splitOnChar sep rest with _ | ⟨g, gs⟩ <;> simp

theorem takeWhile_append_of_all {p : Char → Bool} {xs ys : List Char}
    (h : ∀ x ∈ xs, p x) : (xs ++ ys).takeWhile p = xs ++ ys.takeWhile p := by
  induction xs with
  | nil => simp
  | cons x xs ih =>
    have hx : p x := h x (by simp)
    simp only [List.cons_append, List.takeWhile_cons, hx, if_true]
    rw [ih (fun y hy => h y (by simp [hy]))]

theorem takeWhile_append_of_bad {p : Char → Bool} {xs ys : List Char}
    (h : ∃ x ∈ xs, ¬ p x) : (xs ++ ys).takeWhile p = xs.takeWhile p := by
  induction xs with
  | nil => rcases h with ⟨x, hx, _⟩; cases hx
  | cons x xs ih =>
    by_cases hx : p x
    · simp only [List.cons_append, List.takeWhile_cons, hx, if_true]
      rcases h with ⟨y, hy, hyp⟩
      rcases List.mem_cons.1 hy with rfl | hy'
      · exact absurd hx hyp
      · rw [ih ⟨y, hy', hyp⟩]
    · simp [List.takeWhile_cons, hx]

theorem splitOnChar_of_not_contains {sep : Char} {l : List Char}
    (h : l.contains sep = false) : splitOnChar sep l = [l] := by
  induction l with
  | nil => rfl
  | cons c rest ih =>
    simp only [List.contains_cons, Bool.or_eq_false_iff] at h
    have hc : ¬ c = sep := by
      intro hc; subst hc; simp at h
    rw [show splitOnChar sep (c :: rest) = match splitOnChar sep rest with
          | [] => [[c]] | g :: gs => (c :: g) :: gs by simp [splitOnChar, hc]]
    rw [ih h.2]

theorem splitOnChar_length_ge_two {sep : Char} {l : List Char}
    (h : sep ∈ l) : 2 ≤ (splitOnChar sep l).length := by
  induction l with
  | nil => cases h
  | cons c rest ih =>
    by_cases hc : c = sep
    · subst hc
      simp only [splitOnChar, if_true]
      have := splitOnChar_ne_nil c rest
      have : 0 < (splitOnChar c rest).length := List.length_pos.2 this
      simp only [List.length_cons]
      omega
    · have hrest : sep ∈ rest := by
        rcases List.mem_cons.1 h with rfl | h'
        · exact absurd rfl hc
        · exact h'
      have h2 := ih hrest
      simp only [splitOnChar, hc, if_false]
      rcases hs : splitOnChar sep rest with _ | ⟨g, gs⟩
      · exact absurd hs (splitOnChar_ne_nil sep rest)
      · rw [hs] at h2
        simp only [List.length_cons] at h2 ⊢
        omega

/-- The last group of `split(sep)` is exactly the suffix after the last
separator: Python's `path.split('.')[-1]` computes the spec's
"file extension after the last dot". -/
theorem splitOnChar_getLastD_eq (sep : Char) (l : List Char) :
    (splitOnChar sep l).getLastD [] = (l.reverse.takeWhile (fun c => c ≠ sep)).reverse := by
  induction l with
  | nil => rfl
  | cons c rest ih =>
    by_cases hc : c = sep
    · subst hc
      rw [show splitOnChar c (c :: rest) = [] :: splitOnChar c rest by simp [splitOnChar]]
      have hne := splitOnChar_ne_nil c rest
      rw [List.getLastD_cons]
      have hlast : (splitOnChar c rest).getLastD [] = List.getLastD (splitOnChar c rest) [] := rfl
      by_cases hmem : c ∈ rest
      · -- takeWhile over rest.reverse ++ [c] stops inside rest.reverse
        have hbad : ∃ x ∈ rest.reverse, ¬ (x ≠ c : Bool) := by
          refine ⟨c, by simpa using hmem, by simp⟩
        rw [List.reverse_cons, takeWhile_append_of_bad hbad]
        exact ih
      · have hnc : rest.contains c = false := by simpa using hmem
        rw [splitOnChar_of_not_contains hnc]
        have hall : ∀ x ∈ rest.reverse, (x ≠ c : Bool) := by
          intro x hx
          simp only [ne_eq, decide_eq_true_eq]
          intro hxc
          subst hxc
          exact hmem (by simpa using hx)
        rw [List.reverse_cons, takeWhile_append_of_all hall]
        simp
    · rw [show splitOnChar sep (c :: rest) = match splitOnChar sep rest with
            | [] => [[c]] | g :: gs => (c :: g) :: gs by simp [splitOnChar, hc]]
      rcases hs : splitOnChar sep rest with _ | ⟨g, gs⟩
      · exact absurd hs (splitOnChar_ne_nil sep rest)
      · by_cases hmem : sep ∈ rest
        · have hlen := splitOnChar_length_ge_two hmem
          rw [hs] at hlen
          have hgs : gs ≠ [] := by
            intro hgs
            subst hgs
            simp at hlen
          rw [show List.getLastD ((c :: g) :: gs) [] = List.getLastD gs [] from by
            cases gs with
            | nil => exact absurd rfl hgs
            | cons a as => simp [List.getLastD_cons]]
          have hbad : ∃ x ∈ rest.reverse, ¬ (x ≠ sep : Bool) := by
            refine ⟨sep, by simpa using hmem, by simp⟩
          rw [List.reverse_cons, takeWhile_append_of_bad hbad]
          have : List.getLastD (splitOnChar sep rest) [] = _ := ih
          rw [hs] at this
          rw [← this]
          cases gs with
          | nil => exact absurd rfl hgs
          | cons a as => simp [List.getLastD_cons]
        · have hnc : rest.contains sep = false := by simpa using hmem
          have heq := splitOnChar_of_not_contains hnc
          have h2 : g :: gs = [rest] := by rw [← hs, heq]
          injection h2 with hg1 hg2
          subst hg2
          rw [hg1]
          have hall : ∀ x ∈ rest.reverse, (x ≠ sep : Bool) := by
            intro x hx
            simp only [ne_eq, decide_eq_true_eq]
            intro hxc
            subst hxc
            exact hmem (by simpa using hx)
          rw [List.reverse_cons, takeWhile_append_of_all hall]
          rw [show List.getLastD [c :: rest] ([] : List Char) = c :: rest from rfl]
          rw [show (List.takeWhile (fun x => decide ¬x = sep) [c]) = [c] from by
            simp [List.takeWhile_cons, hc]]
          simp

theorem mem_insertLe {α : Type} (le : α → α → Bool) (a x : α) (l : List α) :
    x ∈ insertLe le a l ↔ x = a ∨ x ∈ l := by
  induction l with
  | nil => simp [insertLe]
  | cons b bs ih =>
    by_cases hb : le b a
    · simp only [insertLe, hb, if_true, List.mem_cons, ih]
      tauto
    · simp only [insertLe, hb, Bool.false_eq_true, if_false, List.mem_cons]

theorem mem_pySortBy {α : Type} (le : α → α → Bool) (x : α) (l : List α) :
    x ∈ pySortBy le l ↔ x ∈ l := by
  suffices h : ∀ acc : List α, x ∈ l.foldl (fun acc a => insertLe le a acc) acc ↔
      x ∈ acc ∨ x ∈ l by
    have := h []
    simpa [pySortBy] using this
  induction l with
  | nil => intro acc; simp
  | cons a as ih =>
    intro acc
    simp only [List.foldl_cons, ih, mem_insertLe, List.mem_cons]
    tauto

theorem mem_dedupFirst {α : Type} [BEq α] [LawfulBEq α] (x : α) (l : List α) :
    x ∈ dedupFirst l ↔ x ∈ l := by
  suffices h : ∀ acc : List α,
      x ∈ l.foldl (fun acc a => if acc.contains a then acc else acc ++ [a]) acc ↔
      x ∈ acc ∨ x ∈ l by
    have := h []
    simpa [dedupFirst] using this
  induction l with
  | nil => intro acc; simp
  | cons a as ih =>
    intro acc
    by_cases hc : acc.contains a
    · simp only [List.foldl_cons, hc, if_true, ih, List.mem_cons]
      have ha : a ∈ acc := by simpa using hc
      constructor
      · rintro (h | h)
        · exact Or.inl h
        · exact Or.inr (Or.inr h)
      · rintro (h | rfl | h)
        · exact Or.inl h
        · exact Or.inl ha
        · exact Or.inr h
    · have hc2 : acc.contains a = false := by simpa using hc
      simp only [List.foldl_cons, hc2, Bool.false_eq_true, if_false, ih, List.mem_append,
        List.mem_cons, List.mem_singleton]
      tauto

theorem findKey_eq_none_iff (k : LatestKey) (acc : List (LatestKey × CatVersion)) :
    findKey k acc = none ↔ ∀ e ∈ acc, e.1 ≠ k := by
  induction acc with
  | nil => simp [findKey]
  | cons e rest ih =>
    obtain ⟨k2, w⟩ := e
    by_cases hk : k2 = k
    · subst hk
      simp [findKey]
    · simp only [findKey, hk, if_false, ih, List.mem_cons]
      constructor
      · rintro h e (rfl | he)
        · simpa using hk
        · exact h e he
      · intro h e he
        exact h e (Or.inr he)

theorem findKey_eq_some_mem {k : LatestKey} {acc : List (LatestKey × CatVersion)}
    {w : CatVersion} (h : findKey k acc = some w) : (k, w) ∈ acc := by
  induction acc with
  | nil => cases h
  | cons e rest ih =>
    obtain ⟨k2, w2⟩ := e
    by_cases hk : k2 = k
    · subst hk
      simp only [findKey, if_true] at h
      cases h
      exact List.mem_cons_self _ _
    · simp only [findKey, hk, if_false] at h
      exact List.mem_cons_of_mem _ (ih h)

theorem keys_replaceKey (k : LatestKey) (v : CatVersion)
    (acc : List (LatestKey × CatVersion)) :
    (replaceKey k v acc).map Prod.fst = acc.map Prod.fst := by
  induction acc with
  | nil => rfl
  | cons e rest ih =>
    obtain ⟨k2, w2⟩ := e
    by_cases hk : k2 = k
    · simp [replaceKey, hk]
    · simp [replaceKey, hk, ih]

/-- With nodup keys the unique entry holding key `k` is the one found. -/
theorem entry_unique {k : LatestKey} {w : CatVersion}
    {acc : List (LatestKey × CatVersion)}
    (hnd : (acc.map Prod.fst).Nodup) (hw : (k, w) ∈ acc) :
    ∀ e ∈ acc, e.1 = k → e = (k, w) := by
  induction acc with
  | nil => cases hw
  | cons e0 rest ih =>
    obtain ⟨k2, w2⟩ := e0
    simp only [List.map_cons, List.nodup_cons] at hnd
    intro e he hek
    rcases List.mem_cons.1 hw with hw0 | hwr
    · -- head is (k, w)
      injection hw0 with hk2 hw2
      subst hk2; subst hw2
      rcases List.mem_cons.1 he with rfl | her
      · rfl
      · exfalso
        apply hnd.1
        rw [← hek]
        exact List.mem_map_of_mem Prod.fst her
    · -- (k, w) in the tail, so k ≠ k2
      have hkne : k2 ≠ k := by
        intro hkk
        apply hnd.1
        rw [hkk]
        exact List.mem_map_of_mem Prod.fst hwr
      rcases List.mem_cons.1 he with rfl | her
      · exact absurd hek hkne
      · exact ih hnd.2 hwr e her hek

theorem mem_replaceKey_iff {k : LatestKey} {w : CatVersion}
    {acc : List (LatestKey × CatVersion)} (v : CatVersion)
    (hnd : (acc.map Prod.fst).Nodup) (hw : (k, w) ∈ acc) :
    ∀ e, e ∈ replaceKey k v acc ↔ (e = (k, v) ∨ (e ∈ acc ∧ e.1 ≠ k)) := by
  induction acc with
  | nil => cases hw
  | cons e0 rest ih =>
    obtain ⟨k2, w2⟩ := e0
    simp only [List.map_cons, List.nodup_cons] at hnd
    intro e
    by_cases hk : k2 = k
    · subst hk
      simp only [replaceKey, if_true]
      constructor
      · intro he
        rcases List.mem_cons.1 he with rfl | her
        · exact Or.inl rfl
        · refine Or.inr ⟨List.mem_cons_of_mem _ her, ?_⟩
          intro hek
          exact hnd.1 (by
            have : e.1 ∈ rest.map Prod.fst := List.mem_map_of_mem Prod.fst her
            rwa [hek] at this)
      · rintro (rfl | ⟨he, hne⟩)
        · exact List.mem_cons_self _ _
        · rcases List.mem_cons.1 he with rfl | her
          · exact absurd rfl hne
          · exact List.mem_cons_of_mem _ her
    · have hwr : (k, w) ∈ rest := by
        rcases List.mem_cons.1 hw with hw0 | hwr
        · exfalso
          apply hk
          injection hw0 with hk0 hw0b
          exact hk0.symm
        · exact hwr
      simp only [replaceKey, hk, if_false]
      constructor
      · intro he
        rcases List.mem_cons.1 he with rfl | her
        · exact Or.inr ⟨List.mem_cons_self _ _, by simpa using hk⟩
        · rcases (ih hnd.2 hwr e).1 her with rfl | ⟨hmem, hne⟩
          · exact Or.inl rfl
          · exact Or.inr ⟨List.mem_cons_of_mem _ hmem, hne⟩
      · rintro (rfl | ⟨he, hne⟩)
        · exact List.mem_cons_of_mem _ ((ih hnd.2 hwr (k, v)).2 (Or.inl rfl))
        · rcases List.mem_cons.1 he with rfl | her
          · exact List.mem_cons_self _ _
          · exact List.mem_cons_of_mem _ ((ih hnd.2 hwr e).2 (Or.inr ⟨her, hne⟩))

theorem latestStep_inv (processed : List CatVersion)
    (acc : List (LatestKey × CatVersion)) (v : CatVersion)
    (h : LatestInv processed acc) :
    LatestInv (processed ++ [v]) (latestStep acc v) := by
  obtain ⟨h1, h2, h3⟩ := h
  rcases hf : findKey (catKey v) acc with _ | w
  · -- new key: append
    have hstep : latestStep acc v = acc ++ [(catKey v, v)] := by
      simp only [latestStep, hf]
    rw [hstep]
    have hknew : ∀ e ∈ acc, e.1 ≠ catKey v := (findKey_eq_none_iff _ _).1 hf
    refine ⟨?_, ?_, ?_⟩
    · intro e he
      rcases List.mem_append.1 he with hea | heb
      · obtain ⟨hkey, l₁, l₂, hdec, hstrict, hweak⟩ := h1 e hea
        refine ⟨hkey, l₁, l₂ ++ [v], by rw [hdec]; simp, hstrict, ?_⟩
        intro u hu hku
        rcases List.mem_append.1 hu with hu1 | hu2
        · exact hweak u hu1 hku
        · rcases List.mem_singleton.1 hu2 with rfl
          exact absurd hku.symm (hknew e hea)
      · rcases List.mem_singleton.1 heb with rfl
        refine ⟨rfl, processed, [], by simp, ?_, by intro u hu; cases hu⟩
        intro u hu hku
        rcases h3 u hu with ⟨e0, he0, hke0⟩
        exact absurd (hke0.trans hku) (hknew e0 he0)
    · rw [List.map_append]
      simp only [List.map_cons, List.map_nil]
      rw [List.nodup_append]
      refine ⟨h2, List.nodup_singleton _, ?_⟩
      intro k hk hk2
      simp only [List.mem_singleton] at hk2
      rcases List.mem_map.1 hk with ⟨e, he, rfl⟩
      exact hknew e he hk2
    · intro u hu
      rcases List.mem_append.1 hu with hu1 | hu2
      · rcases h3 u hu1 with ⟨e, he, hke⟩
        exact ⟨e, List.mem_append_left _ he, hke⟩
      · rcases List.mem_singleton.1 hu2 with rfl
        exact ⟨(catKey u, u), List.mem_append_right _ (List.mem_singleton_self _), rfl⟩
  · -- existing key
    have hwmem : (catKey v, w) ∈ acc := findKey_eq_some_mem hf
    obtain ⟨hkeyw, m₁, m₂, hdecw, hstrictw, hweakw⟩ := h1 _ hwmem
    have hallw : ∀ u ∈ processed, catKey u = catKey v → vnumOf u ≤ vnumOf w := by
      intro u hu hku
      rw [hdecw] at hu
      rcases List.mem_append.1 hu with hu1 | hu2
      · exact le_of_lt (hstrictw u hu1 hku)
      · rcases List.mem_cons.1 hu2 with rfl | hu3
        · exact le_refl _
        · exact hweakw u hu3 hku
    by_cases hlt : _get_version_number w.code < _get_version_number v.code
    · have hstep : latestStep acc v = replaceKey (catKey v) v acc := by
        simp only [latestStep, hf, hlt, if_true]
      rw [hstep]
      have hmemiff := mem_replaceKey_iff v h2 hwmem
      refine ⟨?_, ?_, ?_⟩
      · intro e he
        rcases (hmemiff e).1 he with rfl | ⟨hea, hne⟩
        · refine ⟨rfl, processed, [], by simp, ?_, by intro u hu; cases hu⟩
          intro u hu hku
          exact lt_of_le_of_lt (hallw u hu hku) hlt
        · obtain ⟨hkey, l₁, l₂, hdec, hstrict, hweak⟩ := h1 e hea
          refine ⟨hkey, l₁, l₂ ++ [v], by rw [hdec]; simp, hstrict, ?_⟩
          intro u hu hku
          rcases List.mem_append.1 hu with hu1 | hu2
          · exact hweak u hu1 hku
          · rcases List.mem_singleton.1 hu2 with rfl
            exact absurd hku.symm hne
      · rw [keys_replaceKey]
        exact h2
      · intro u hu
        rcases List.mem_append.1 hu with hu1 | hu2
        · rcases h3 u hu1 with ⟨e, he, hke⟩
          by_cases hek : e.1 = catKey v
          · exact ⟨(catKey v, v), (hmemiff _).2 (Or.inl rfl), by rw [← hek, hke]⟩
          · exact ⟨e, (hmemiff e).2 (Or.inr ⟨he, hek⟩), hke⟩
        · rcases List.mem_singleton.1 hu2 with rfl
          exact ⟨(catKey u, u), (hmemiff _).2 (Or.inl rfl), rfl⟩
    · have hstep : latestStep acc v = acc := by
        simp only [latestStep, hf, hlt, if_false]
      rw [hstep]
      refine ⟨?_, h2, ?_⟩
      · intro e he
        obtain ⟨hkey, l₁, l₂, hdec, hstrict, hweak⟩ := h1 e he
        refine ⟨hkey, l₁, l₂ ++ [v], by rw [hdec]; simp, hstrict, ?_⟩
        intro u hu hku
        rcases List.mem_append.1 hu with hu1 | hu2
        · exact hweak u hu1 hku
        · rcases List.mem_singleton.1 hu2 with rfl
          have hek : e = (catKey u, w) := entry_unique h2 hwmem e he hku.symm
          have hew : e.2 = w := by rw [hek]
          rw [hew]
          exact le_of_not_lt hlt
      · intro u hu
        rcases List.mem_append.1 hu with hu1 | hu2
        · exact h3 u hu1
        · rcases List.mem_singleton.1 hu2 with rfl
          exact ⟨(catKey u, w), hwmem, rfl⟩

theorem foldl_latest_inv :
    ∀ (vs processed : List CatVersion) (acc : List (LatestKey × CatVersion)),
      LatestInv processed acc →
      LatestInv (processed ++ vs) (vs.foldl latestStep acc) := by
  intro vs
  induction vs with
  | nil => intro processed acc h; simpa using h
  | cons a as ih =>
    intro processed acc h
    have h1 := latestStep_inv processed acc a h
    have h2 := ih (processed ++ [a]) (latestStep acc a) h1
    simpa [List.append_assoc] using h2

theorem selectLatest_inv (vs : List CatVersion) :
    LatestInv vs (vs.foldl latestStep []) := by
  have h0 : LatestInv [] [] := by
    refine ⟨?_, ?_, ?_⟩
    · intro e he; cases he
    · simp
    · intro w hw; cases hw
  have := foldl_latest_inv vs [] [] h0
  simpa using this

/-! ## Soundness of the `_v\d+` scanners (claim C7) and of the
alternation search (claim C5) -/
theorem findIdx?_cons_eq {α : Type} (p : α → Bool) (a : α) (l : List α) :
    (a :: l).findIdx? p = if p a then some 0 else (l.findIdx? p).map (· + 1) := by
  rw [List.findIdx?_cons]
  by_cases h : p a
  · simp [h]
  · simp [h, List.findIdx?_succ]

theorem dropWhile_head_not (p : Char → Bool) (m : List Char) (c : Char)
    (h : (m.dropWhile p).head? = some c) : p c = false := by
  induction m with
  | nil => cases h
  | cons x xs ih =>
    by_cases hx : p x
    · rw [List.dropWhile_cons_of_pos hx] at h
      exact ih h
    · rw [List.dropWhile_cons_of_neg hx] at h
      simp only [List.head?_cons, Option.some.injEq] at h
      subst h
      simpa using hx

theorem splitVAt_some {l ds suf : List Char} (h : splitVAt l = some (ds, suf)) :
    l = '_' :: 'v' :: (ds ++ suf) ∧ ds ≠ [] ∧ ds.all Char.isDigit = true ∧
    (∀ c, suf.head? = some c → c.isDigit = false) := by
  match l with
  | [] => cases h
  | [c1] => cases h
  | c1 :: c2 :: rest =>
    replace h : (if c1 = '_' ∧ c2 = 'v' then
        (if (rest.takeWhile Char.isDigit).isEmpty then none
         else some (rest.takeWhile Char.isDigit, rest.dropWhile Char.isDigit))
      else none) = some (ds, suf) := h
    by_cases hc : c1 = '_' ∧ c2 = 'v'
    · rw [if_pos hc] at h
      obtain ⟨rfl, rfl⟩ := hc
      by_cases hds : (rest.takeWhile Char.isDigit).isEmpty
      · rw [if_pos hds] at h; cases h
      · rw [if_neg hds] at h
        injection h with h1
        injection h1 with hds2 hsuf
        subst hds2; subst hsuf
        refine ⟨by rw [List.takeWhile_append_dropWhile], ?_, ?_, ?_⟩
        · intro hnil
          rw [hnil] at hds
          exact hds rfl
        · rw [List.all_eq_true]
          intro c hc
          exact List.mem_takeWhile_imp hc
        · intro c hc
          exact dropWhile_head_not Char.isDigit rest c hc
    · rw [if_neg hc] at h; cases h

theorem splitVAt_none_shape {l : List Char} (h : splitVAt l = none) :
    ∀ ds suf, splitVAt l ≠ some (ds, suf) := by
  intro ds suf hcontra
  rw [h] at hcontra
  cases hcontra

theorem splitFirstV_some {l : List Char} :
    ∀ {a ds suf : List Char}, splitFirstV l = some (a, ds, suf) →
    l = a ++ '_' :: 'v' :: (ds ++ suf) ∧ ds ≠ [] ∧ ds.all Char.isDigit = true ∧
    (∀ c, suf.head? = some c → c.isDigit = false) ∧
    (∀ i, i < a.length → splitVAt (l.drop i) = none) := by
  induction l with
  | nil => intro a ds suf h; cases h
  | cons c rest ih =>
    intro a ds suf h
    rcases hat : splitVAt (c :: rest) with _ | ⟨ds0, suf0⟩
    · rcases hrec : splitFirstV rest with _ | ⟨⟨a1, ds1, suf1⟩⟩
      · rw [show splitFirstV (c :: rest)
            = (match splitVAt (c :: rest) with
               | some (ds, suf) => some ([], ds, suf)
               | none => match splitFirstV rest with
                 | some (a, ds, suf) => some (c :: a, ds, suf)
                 | none => none) from rfl, hat, hrec] at h
        cases h
      · rw [show splitFirstV (c :: rest)
            = (match splitVAt (c :: rest) with
               | some (ds, suf) => some ([], ds, suf)
               | none => match splitFirstV rest with
                 | some (a, ds, suf) => some (c :: a, ds, suf)
                 | none => none) from rfl, hat, hrec] at h
        injection h with h1
        injection h1 with ha h2
        injection h2 with hds hsuf
        subst ha; subst hds; subst hsuf
        obtain ⟨hdec, hne, hdig, hhead, hfirst⟩ := ih hrec
        refine ⟨by rw [List.cons_append, hdec], hne, hdig, hhead, ?_⟩
        intro i hi
        cases i with
        | zero => simpa using hat
        | succ j =>
          simp only [List.length_cons, Nat.succ_lt_succ_iff] at hi
          simpa using hfirst j hi
    · rw [show splitFirstV (c :: rest)
          = (match splitVAt (c :: rest) with
             | some (ds, suf) => some ([], ds, suf)
             | none => match splitFirstV rest with
               | some (a, ds, suf) => some (c :: a, ds, suf)
               | none => none) from rfl, hat] at h
      injection h with h1
      injection h1 with ha h2
      injection h2 with hds hsuf
      subst ha; subst hds; subst hsuf
      obtain ⟨hdec, hne, hdig, hhead⟩ := splitVAt_some hat
      refine ⟨by simpa using hdec, hne, hdig, hhead, ?_⟩
      intro i hi
      cases hi

theorem splitFirstV_none {l : List Char} (h : splitFirstV l = none) :
    ∀ i, splitVAt (l.drop i) = none := by
  induction l with
  | nil =>
    intro i
    simp [splitVAt, List.drop_nil]
  | cons c rest ih =>
    intro i
    rcases hat : splitVAt (c :: rest) with _ | ⟨ds0, suf0⟩
    · rcases hrec : splitFirstV rest with _ | ⟨a1, ds1, suf1⟩
      · cases i with
        | zero => simpa using hat
        | succ j => simpa using ih hrec j
      · rw [show splitFirstV (c :: rest)
            = (match splitVAt (c :: rest) with
               | some (ds, suf) => some ([], ds, suf)
               | none => match splitFirstV rest with
                 | some (a, ds, suf) => some (c :: a, ds, suf)
                 | none => none) from rfl, hat, hrec] at h
        cases h
    · rw [show splitFirstV (c :: rest)
          = (match splitVAt (c :: rest) with
             | some (ds, suf) => some ([], ds, suf)
             | none => match splitFirstV rest with
               | some (a, ds, suf) => some (c :: a, ds, suf)
               | none => none) from rfl, hat] at h
      cases h

/-- Model: `reSearchAlt` finds a declared token at the leftmost matching
position: its occurrence index is minimal among all tokens. -/
theorem reSearchAlt_some {tokens : List String} {l : List Char} {t : String}
    (h : reSearchAlt tokens l = some t) :
    t ∈ tokens ∧ ∃ p, substrPos t.data l = some p ∧
      ∀ t2 ∈ tokens, ∀ q, substrPos t2.data l = some q → p ≤ q := by
  induction l with
  | nil => cases h
  | cons c rest ih =>
    unfold reSearchAlt at h
    rcases hfind : tokens.find? (fun t => t.data.isPrefixOf (c :: rest)) with _ | t0
    · rw [hfind] at h
      obtain ⟨hmem, p, hp, hmin⟩ := ih h
      have hnotpre : ∀ t2 ∈ tokens, t2.data.isPrefixOf (c :: rest) = false := by
        intro t2 ht2
        have h2 := List.find?_eq_none.1 hfind t2 ht2
        exact Bool.eq_false_iff.mpr h2
      refine ⟨hmem, p + 1, ?_, ?_⟩
      · have hnp : t.data.isPrefixOf (c :: rest) = false := hnotpre t hmem
        simp only [substrPos, hnp, Bool.false_eq_true, if_false, hp, Option.map_some']
      · intro t2 ht2 q hq
        have hnp2 : t2.data.isPrefixOf (c :: rest) = false := hnotpre t2 ht2
        simp only [substrPos, hnp2, Bool.false_eq_true, if_false] at hq
        rcases hq2 : substrPos t2.data rest with _ | q0
        · rw [hq2] at hq; cases hq
        · rw [hq2] at hq
          simp only [Option.map_some', Option.some.injEq] at hq
          subst hq
          have := hmin t2 ht2 q0 hq2
          omega
    · rw [hfind] at h
      injection h with ht0
      subst ht0
      have hpre : t0.data.isPrefixOf (c :: rest) = true := by
        have h3 := List.find?_some hfind
        exact h3
      refine ⟨List.mem_of_find?_eq_some hfind, 0, ?_, ?_⟩
      · simp [substrPos, hpre]
      · intro t2 ht2 q hq
        exact Nat.zero_le q

/-- When the alternation search fails, no token occurs anywhere. -/
theorem reSearchAlt_none {tokens : List String} {l : List Char}
    (hne : ∀ t ∈ tokens, t.data ≠ [])
    (h : reSearchAlt tokens l = none) :
    ∀ t ∈ tokens, substrPos t.data l = none := by
  induction l with
  | nil =>
    intro t ht
    have := hne t ht
    simp only [substrPos]
    rw [if_neg (by simpa [List.isEmpty_iff] using this)]
  | cons c rest ih =>
    intro t ht
    unfold reSearchAlt at h
    rcases hfind : tokens.find? (fun t => t.data.isPrefixOf (c :: rest)) with _ | t0
    · rw [hfind] at h
      have hnp : t.data.isPrefixOf (c :: rest) = false := by
        have h2 := List.find?_eq_none.1 hfind t ht
        exact Bool.eq_false_iff.mpr h2
      simp only [substrPos, hnp, Bool.false_eq_true, if_false]
      rw [ih h t ht]
      rfl
    · rw [hfind] at h; cases h

/-! ## Combo-box lemmas -/
theorem findIdx?_proj {α : Type} (f : α → String) (t : String) :
    ∀ (l : List α), (∃ x ∈ l, f x = t) →
      ∃ i x, l.findIdx? (fun a => f a == t) = some i ∧ l.get? i = some x ∧ f x = t := by
  intro l
  induction l with
  | nil => rintro ⟨x, hx, _⟩; cases hx
  | cons a as ih =>
    rintro ⟨x, hx, hfx⟩
    by_cases ha : (f a == t) = true
    · refine ⟨0, a, ?_, by simp, by simpa using ha⟩
      rw [findIdx?_cons_eq]
      simp [ha]
    · have hx2 : x ∈ as := by
        rcases List.mem_cons.1 hx with rfl | hmem
        · exact absurd (by simp [hfx]) ha
        · exact hmem
      obtain ⟨i, y, hfind, hget, hfy⟩ := ih ⟨x, hx2, hfx⟩
      refine ⟨i + 1, y, ?_, by simpa using hget, hfy⟩
      rw [findIdx?_cons_eq]
      simp [ha, hfind]

theorem Combo.currentText_mem_or_empty (c : Combo) :
    c.currentText = "" ∨ c.currentText ∈ c.items := by
  unfold Combo.currentText
  cases hs : c.sel with
  | none => exact Or.inl rfl
  | some i =>
    show c.items.getD i ("") = "" ∨ c.items.getD i ("") ∈ c.items
    have hgetD : c.items.getD i ("") = (c.items.get? i).getD ("") := by
      simp [List.getD]
    rw [hgetD]
    cases hg : c.items.get? i with
    | none => exact Or.inl rfl
    | some x => exact Or.inr (by simpa using List.get?_mem hg)

theorem combo_items_setCurrentText (c : Combo) (t : String) :
    (c.setCurrentText t).items = c.items := by
  unfold Combo.setCurrentText
  cases h : c.items.findIdx? (fun x => x == t) <;> rfl

theorem combo_currentText_setCurrentText {c : Combo} {t : String} (h : t ∈ c.items) :
    (c.setCurrentText t).currentText = t := by
  obtain ⟨i, x, hfind, hget, hfx⟩ := findIdx?_proj (fun x => x) t c.items ⟨t, h, rfl⟩
  unfold Combo.setCurrentText
  rw [show c.items.findIdx? (fun x => x == t) = some i from hfind]
  unfold Combo.currentText
  simp only
  have hgetD : c.items.getD i ("") = (c.items.get? i).getD ("") := by
    simp [List.getD]
  rw [hgetD, hget]
  exact hfx

theorem Combo.items_addItems_empty (xs : List String) :
    (Combo.empty.addItems xs).items = xs := by
  simp [Combo.addItems, Combo.empty]

theorem Combo.currentText_addItems_empty (xs : List String) :
    (Combo.empty.addItems xs).currentText = xs.headD ("") := by
  cases xs with
  | nil => rfl
  | cons x r => rfl

theorem combo_hasText_iff (c : Combo) (t : String) :
    c.hasText t = true ↔ t ∈ c.items := by
  simp [Combo.hasText]

theorem Combo.currentText_empty : Combo.empty.currentText = "" := rfl

theorem DataCombo.currentData_mem {c : DataCombo} {v : NVersion}
    (h : c.currentData = some v) : v ∈ c.items.map Prod.snd := by
  unfold DataCombo.currentData at h
  cases hs : c.sel with
  | none => rw [hs] at h; cases h
  | some i =>
    rw [hs] at h
    replace h : (c.items.get? i).map Prod.snd = some v := h
    cases hg : c.items.get? i with
    | none => rw [hg] at h; cases h
    | some x =>
      rw [hg] at h
      simp only [Option.map_some', Option.some.injEq] at h
      subst h
      exact List.mem_map_of_mem Prod.snd (List.get?_mem hg)

theorem dataCombo_items_setCurrentText (c : DataCombo) (t : String) :
    (c.setCurrentText t).items = c.items := by
  unfold DataCombo.setCurrentText
  cases h : c.items.findIdx? (fun x => x.1 == t) <;> rfl

theorem DataCombo.sel_setCurrentText_cases (c : DataCombo) (t : String) :
    (c.setCurrentText t).sel = c.sel ∨
    ∃ i, c.items.findIdx? (fun x => x.1 == t) = some i ∧ (c.setCurrentText t).sel = some i := by
  unfold DataCombo.setCurrentText
  cases h : c.items.findIdx? (fun x => x.1 == t) with
  | none => exact Or.inl rfl
  | some i => exact Or.inr ⟨i, rfl, rfl⟩

theorem dataCombo_currentText_setCurrentText {c : DataCombo} {t : String}
    (h : t ∈ c.items.map Prod.fst) : (c.setCurrentText t).currentText = t := by
  rcases List.mem_map.1 h with ⟨x0, hx0, hfx0⟩
  obtain ⟨i, x, hfind, hget, hfx⟩ := findIdx?_proj Prod.fst t c.items ⟨x0, hx0, hfx0⟩
  unfold DataCombo.setCurrentText
  rw [show c.items.findIdx? (fun x => x.1 == t) = some i from hfind]
  unfold DataCombo.currentText
  simp only
  rw [hget]
  simpa using hfx

theorem dataCombo_hasText_iff (c : DataCombo) (t : String) :
    c.hasText t = true ↔ t ∈ c.items.map Prod.fst := by
  unfold DataCombo.hasText
  rw [List.any_eq_true]
  constructor
  · rintro ⟨x, hx, hxt⟩
    exact List.mem_map.2 ⟨x, hx, by simpa using hxt⟩
  · intro hmem
    rcases List.mem_map.1 hmem with ⟨x, hx, hxt⟩
    exact ⟨x, hx, by simpa using hxt⟩

theorem foldl_addItem_items (f : NVersion → String × NVersion) :
    ∀ (vs : List NVersion) (c : DataCombo),
      (vs.foldl (fun c v => c.addItem (f v)) c).items = c.items ++ vs.map f := by
  intro vs
  induction vs with
  | nil => intro c; simp
  | cons v rest ih =>
    intro c
    simp only [List.foldl_cons, List.map_cons]
    rw [ih]
    simp [DataCombo.addItem]

/-! ## Behaviour of the cascade recomputations -/

/-- Model: `_update_dependent_filters` never touches the format combo or the
stored history. -/
theorem update_keeps_render_history (s : UIState) :
    (_update_dependent_filters s).render_combo = s.render_combo ∧
    (_update_dependent_filters s).current_version_history = s.current_version_history := by
  unfold _update_dependent_filters
  by_cases h : s.current_version_history.isEmpty
  · simp [h]
  · simp [h]

theorem mem_versInFmt {fmt : String} {hist : List NVersion} {v : NVersion}
    (h : v ∈ versInFmt fmt hist) : v ∈ hist ∧ hasFormat fmt v = true := by
  unfold versInFmt at h
  exact ⟨List.mem_of_mem_filter h, List.of_mem_filter h⟩

theorem mem_filterBySubAsset {sa : Option String} {vs : List NVersion} {v : NVersion}
    (h : v ∈ filterBySubAsset sa vs) :
    v ∈ vs ∧
    (∀ t, sa = some t → t ≠ "" → t = NO_ASSET_FILTER_TAG → v.asset_name = none) ∧
    (∀ t, sa = some t → t ≠ "" → t ≠ NO_ASSET_FILTER_TAG → v.asset_name = some t) := by
  unfold filterBySubAsset at h
  cases hsa : sa with
  | none =>
    rw [hsa] at h
    replace h : v ∈ vs := h
    refine ⟨h, ?_, ?_⟩ <;> intro t ht <;> cases ht
  | some t0 =>
    rw [hsa] at h
    replace h : v ∈ (if t0 = "" then vs
      else if t0 = NO_ASSET_FILTER_TAG then vs.filter (fun v => v.asset_name.isNone)
      else vs.filter (fun v => v.asset_name == some t0)) := h
    by_cases h0 : t0 = ""
    · rw [if_pos h0] at h
      refine ⟨h, ?_, ?_⟩ <;> intro t ht hne _
      · injection ht with ht2; subst ht2; exact absurd h0 hne
      · injection ht with ht2; subst ht2; exact absurd h0 hne
    · rw [if_neg h0] at h
      by_cases htag : t0 = NO_ASSET_FILTER_TAG
      · rw [if_pos htag] at h
        refine ⟨List.mem_of_mem_filter h, ?_, ?_⟩
        · intro t ht _ _
          have := List.of_mem_filter h
          simpa [Option.isNone_iff_eq_none] using this
        · intro t ht _ hnetag
          injection ht with ht2; subst ht2
          exact absurd htag hnetag
      · rw [if_neg htag] at h
        refine ⟨List.mem_of_mem_filter h, ?_, ?_⟩
        · intro t ht _ htag2
          injection ht with ht2; subst ht2
          exact absurd htag2 htag
        · intro t ht _ _
          injection ht with ht2; subst ht2
          have := List.of_mem_filter h
          simpa using this

theorem mem_finalVersions {sa : Option String} {fmt : String} {hist : List NVersion}
    {v : NVersion} (h : v ∈ finalVersions sa fmt hist) :
    v ∈ hist ∧ hasFormat fmt v = true ∧
    (∀ t, sa = some t → t ≠ "" → t = NO_ASSET_FILTER_TAG → v.asset_name = none) ∧
    (∀ t, sa = some t → t ≠ "" → t ≠ NO_ASSET_FILTER_TAG → v.asset_name = some t) := by
  unfold finalVersions at h
  rw [mem_pySortBy] at h
  obtain ⟨hsub, hcond1, hcond2⟩ := mem_filterBySubAsset h
  obtain ⟨hmem, hfmt⟩ := mem_versInFmt hsub
  exact ⟨hmem, hfmt, hcond1, hcond2⟩

/-- Specification of the version tier after `_update_dependent_filters`:
every item's attached record comes unchanged from the stored history, has
a path of the selected format, satisfies the sub-asset narrowing shown in
the recomputed sub-asset combo, and is labelled by `displayCode`. -/
theorem update_material_spec (s : UIState)
    (h : s.current_version_history.isEmpty = false) :
    ∀ d v, (d, v) ∈ (_update_dependent_filters s).material_combo.items →
      v ∈ s.current_version_history ∧
      hasFormat s.render_combo.currentText v = true ∧
      d = displayCode s.render_combo.currentText v ∧
      ((_update_dependent_filters s).asset_filter_visible = true →
        ((_update_dependent_filters s).asset_filter_combo.currentText = "" ∨
         ((_update_dependent_filters s).asset_filter_combo.currentText = NO_ASSET_FILTER_TAG ∧
           v.asset_name = none) ∨
         v.asset_name =
           some ((_update_dependent_filters s).asset_filter_combo.currentText))) := by
  intro d v hmem
  have hshape : _update_dependent_filters s =
      { s with
        asset_filter_combo :=
          (subAssetComboAfter s.asset_filter_combo.currentText
            (subAssetChoices s.render_combo.currentText s.current_version_history)).1,
        asset_filter_visible :=
          (subAssetComboAfter s.asset_filter_combo.currentText
            (subAssetChoices s.render_combo.currentText s.current_version_history)).2,
        material_combo :=
          (finalVersions
            (if (subAssetComboAfter s.asset_filter_combo.currentText
                  (subAssetChoices s.render_combo.currentText s.current_version_history)).2
             then some (subAssetComboAfter s.asset_filter_combo.currentText
                  (subAssetChoices s.render_combo.currentText s.current_version_history)).1.currentText
             else none)
            s.render_combo.currentText s.current_version_history).foldl
            (fun c v => c.addItem (displayCode s.render_combo.currentText v, v))
            DataCombo.empty } := by
    unfold _update_dependent_filters
    rw [h]
    simp only [Bool.false_eq_true, if_false]
  rw [hshape] at hmem ⊢
  simp only at hmem ⊢
  rw [foldl_addItem_items] at hmem
  simp only [DataCombo.empty, List.nil_append] at hmem
  rcases List.mem_map.1 hmem with ⟨v0, hv0, heq⟩
  injection heq with hd hv
  subst hd
  subst hv
  obtain ⟨hmemh, hfmt, hcond1, hcond2⟩ := mem_finalVersions hv0
  refine ⟨hmemh, hfmt, rfl, ?_⟩
  intro hvis
  set acv := subAssetComboAfter s.asset_filter_combo.currentText
    (subAssetChoices s.render_combo.currentText s.current_version_history) with hacv
  by_cases hv2 : acv.2
  · set t := acv.1.currentText with ht
    by_cases h0 : t = ""
    · exact Or.inl h0
    · by_cases htag : t = NO_ASSET_FILTER_TAG
      · refine Or.inr (Or.inl ⟨htag, ?_⟩)
        apply hcond1 t ?_ h0 htag
        rw [if_pos hv2]
      · refine Or.inr (Or.inr ?_)
        apply hcond2 t ?_ h0 htag
        rw [if_pos hv2]
  · exact absurd hvis (by simpa using hv2)

/-! ## Claim theorems -/

/-- C2.  Path normalization: for every input value — plain string, native
list/tuple, string-encoded sequence literal, or nested mixtures —
`_flatten_and_clean_paths` returns a flat list of trimmed strings (every
element is a fixed point of the quote-and-space strip the source applies);
a string that looks like a sequence literal but fails to parse degrades to
the one-element list holding the trimmed raw string; a parsed literal is
normalized recursively; native sequences flatten elementwise.  The
function is total by construction, modelling that the Python code never
raises (the bare `except` catches the only fallible call). -/
theorem path_normalization_correct :
    (∀ v : PyVal, ∀ e ∈ _flatten_and_clean_paths v, stripQuoteSpace e = e) ∧
    (∀ s : String, looksLikeSeqLiteral (pyStrip s) = false →
      _flatten_and_clean_paths (.str s) = [stripQuoteSpace (pyStrip s)]) ∧
    (∀ s : String, looksLikeSeqLiteral (pyStrip s) = true →
      literal_eval (pyStrip s) = none →
      _flatten_and_clean_paths (.str s) = [stripQuoteSpace (pyStrip s)]) ∧
    (∀ (s : String) (t : PyVal), looksLikeSeqLiteral (pyStrip s) = true →
      literal_eval (pyStrip s) = some t →
      _flatten_and_clean_paths (.str s) = _flatten_and_clean_paths t) ∧
    (∀ xs : List PyVal,
      _flatten_and_clean_paths (.list xs) = xs.flatMap _flatten_and_clean_paths ∧
      _flatten_and_clean_paths (.tuple xs) = xs.flatMap _flatten_and_clean_paths) :=
  ⟨fun v e he => flattenFuel_trimmed v.size v e he,
   flatten_str_plain, flatten_str_malformed, flatten_str_parsed,
   fun xs => ⟨flatten_list_eq xs, flatten_tuple_eq xs⟩⟩

/-- Witness for C2 at concrete inputs: a well-formed literal normalizes
through its parse, a malformed literal degrades to the trimmed raw
string, and a plain path string is returned trimmed as a singleton. -/
theorem path_normalization_correct_witness :
    (_flatten_and_clean_paths (.str ("[ 'a', ' b ' ]")) =
      _flatten_and_clean_paths (PyVal.list [.str ("a"), .str (" b ")])) ∧
    (_flatten_and_clean_paths (.str ("[a]")) = [stripQuoteSpace (pyStrip ("[a]"))]) ∧
    (_flatten_and_clean_paths (.str (" p/q.abc ")) = [stripQuoteSpace (pyStrip (" p/q.abc "))]) := by
  refine ⟨?_, ?_, ?_⟩
  · exact path_normalization_correct.2.2.2.1 ("[ 'a', ' b ' ]")
      (PyVal.list [.str ("a"), .str (" b ")]) (by rfl) (by rfl)
  · exact path_normalization_correct.2.2.1 ("[a]") (by rfl) (by rfl)
  · exact path_normalization_correct.2.1 (" p/q.abc ") (by rfl)

/-- C10.  A value that is neither a string nor a list/tuple (e.g. `None`,
a number), whether given directly or nested inside a sequence, contributes
the empty sequence to normalization — it is silently dropped — and a
record whose raw path field is such a value normalizes to having no paths. -/
theorem non_string_paths_dropped :
    (∀ v : PyVal, (∀ s, v ≠ .str s) → (∀ xs, v ≠ .list xs) → (∀ xs, v ≠ .tuple xs) →
      _flatten_and_clean_paths v = []) ∧
    (∀ (x : PyVal) (xs : List PyVal),
      (∀ s, x ≠ .str s) → (∀ ys, x ≠ .list ys) → (∀ ys, x ≠ .tuple ys) →
      _flatten_and_clean_paths (.list (x :: xs)) = _flatten_and_clean_paths (.list xs)) ∧
    (∀ r : RVersion, (∀ s, r.sg_path_to_geometry ≠ .str s) →
      (∀ xs, r.sg_path_to_geometry ≠ .list xs) → (∀ xs, r.sg_path_to_geometry ≠ .tuple xs) →
      (normalizeRecord r).paths = []) := by
  refine ⟨flatten_other_eq, ?_, ?_⟩
  · intro x xs hs hl ht
    rw [flatten_list_eq, flatten_list_eq, List.flatMap_cons, flatten_other_eq x hs hl ht]
    simp
  · intro r hs hl ht
    show _flatten_and_clean_paths r.sg_path_to_geometry = []
    exact flatten_other_eq _ hs hl ht

/-- Witness for C10: `None` normalizes to no paths, drops silently inside
a list, and a record carrying `None` in its path field has no paths. -/
theorem non_string_paths_dropped_witness :
    _flatten_and_clean_paths .pynone = [] ∧
    _flatten_and_clean_paths (.list [.pynone, .str ("a")]) =
      _flatten_and_clean_paths (.list [.str ("a")]) ∧
    (normalizeRecord ⟨1, "c", .pynone, none, 0⟩).paths = [] := by
  refine ⟨?_, ?_, ?_⟩
  · exact non_string_paths_dropped.1 .pynone
      (fun s h => PyVal.noConfusion h) (fun xs h => PyVal.noConfusion h)
      (fun xs h => PyVal.noConfusion h)
  · exact non_string_paths_dropped.2.1 .pynone [.str ("a")]
      (fun s h => PyVal.noConfusion h) (fun ys h => PyVal.noConfusion h)
      (fun ys h => PyVal.noConfusion h)
  · exact non_string_paths_dropped.2.2 ⟨1, "c", .pynone, none, 0⟩
      (fun s h => PyVal.noConfusion h) (fun xs h => PyVal.noConfusion h)
      (fun xs h => PyVal.noConfusion h)

/-- C9.  When the sibling-history fetch returns the empty sequence, the
cascade resets fully: the stored history becomes empty, all three combo
tiers are cleared with nothing selected or selectable. -/
theorem empty_history_reset_correct (s : UIState) :
    _query_and_populate_all_filters s [] =
      { current_version_history := [], render_combo := Combo.empty,
        asset_filter_combo := Combo.empty, asset_filter_visible := false,
        material_combo := DataCombo.empty } ∧
    (_query_and_populate_all_filters s []).render_combo.currentText = "" ∧
    (_query_and_populate_all_filters s []).asset_filter_combo.currentText = "" ∧
    (_query_and_populate_all_filters s []).material_combo.currentData = none ∧
    (_query_and_populate_all_filters s []).current_version_history = [] :=
  ⟨rfl, rfl, rfl, rfl, rfl⟩

/-- C4.  Format token derivation: for a non-empty path string the token is
the path's extension — the suffix after the last `.` (proved against an
independent rendering of "after the last dot", `extAfterLastDot`) — with
the two-segment extension `.bgeo.sc` recognized as the single token
`"bgeo.sc"`; a path with no dot, an empty path, or a non-string value
yields `"unknown"`; and the spec's three examples hold. -/
theorem format_token_derivation_correct :
    (∀ s : String, ".bgeo.sc".data.isSuffixOf s.data = false →
      s.data.contains '.' = true → _get_file_format (.str s) = extAfterLastDot s) ∧
    (∀ s : String, ".bgeo.sc".data.isSuffixOf s.data = true →
      _get_file_format (.str s) = "bgeo.sc") ∧
    (∀ s : String, s.data.contains '.' = false → _get_file_format (.str s) = "unknown") ∧
    (∀ v : PyVal, (∀ s, v ≠ .str s) → _get_file_format v = "unknown") ∧
    (_get_file_format (.str ("a/b/file.bgeo.sc")) = "bgeo.sc" ∧
     _get_file_format (.str ("a/file.abc")) = "abc" ∧
     _get_file_format (.str ("a/file")) = "unknown") := by
  refine ⟨?_, ?_, ?_, ?_, by refine ⟨?_, ?_, ?_⟩ <;> rfl⟩
  · intro s hsfx hdot
    have hne : s.data.isEmpty = false := by
      cases hd : s.data with
      | nil => rw [hd] at hdot; cases hdot
      | cons c cs => rfl
    show (if s.data.isEmpty then ("unknown")
      else if (".bgeo.sc").data.isSuffixOf s.data then ("bgeo.sc")
      else if s.data.contains '.' then (⟨(splitOnChar '.' s.data).getLastD []⟩ : String)
      else ("unknown")) = extAfterLastDot s
    rw [hne, hsfx, hdot]
    simp only [Bool.false_eq_true, if_false, if_true]
    unfold extAfterLastDot
    have := splitOnChar_getLastD_eq '.' s.data
    rw [this]
  · intro s hsfx
    have hne : s.data.isEmpty = false := by
      rcases hsfx2 : s.data with _ | _
      · rw [hsfx2] at hsfx
        cases hck : ".bgeo.sc".data.isSuffixOf ([] : List Char)
        · rw [hck] at hsfx; cases hsfx
        · exact absurd hck (by decide)
      · rfl
    show (if s.data.isEmpty then ("unknown")
      else if (".bgeo.sc").data.isSuffixOf s.data then ("bgeo.sc")
      else if s.data.contains '.' then (⟨(splitOnChar '.' s.data).getLastD []⟩ : String)
      else ("unknown")) = "bgeo.sc"
    rw [hne, hsfx]
    simp
  · intro s hdot
    have hsfx : ".bgeo.sc".data.isSuffixOf s.data = false := by
      cases hck : ".bgeo.sc".data.isSuffixOf s.data
      · rfl
      · exfalso
        have hsub : ".bgeo.sc".data <:+ s.data := by
          rw [← List.isSuffixOf_iff_suffix]
          exact hck
        rcases hsub with ⟨t, ht⟩
        have hmem : '.' ∈ s.data := by
          rw [← ht]
          refine List.mem_append.2 (Or.inr ?_)
          decide
        have : s.data.contains '.' = true := by simpa using hmem
        rw [this] at hdot
        cases hdot
    by_cases hne : s.data.isEmpty
    · show (if s.data.isEmpty then ("unknown")
        else if (".bgeo.sc").data.isSuffixOf s.data then ("bgeo.sc")
        else if s.data.contains '.' then (⟨(splitOnChar '.' s.data).getLastD []⟩ : String)
        else ("unknown")) = "unknown"
      rw [hne]
      simp
    · have hne2 : s.data.isEmpty = false := by simpa using hne
      show (if s.data.isEmpty then ("unknown")
        else if (".bgeo.sc").data.isSuffixOf s.data then ("bgeo.sc")
        else if s.data.contains '.' then (⟨(splitOnChar '.' s.data).getLastD []⟩ : String)
        else ("unknown")) = "unknown"
      rw [hne2, hsfx, hdot]
      simp
  · intro v hv
    cases v with
    | str s => exact absurd rfl (hv s)
    | list xs => rfl
    | tuple xs => rfl
    | int n => rfl
    | bool b => rfl
    | pynone => rfl

/-- Witness for C4: the general extension equation applied at a concrete
path, and the `unknown` fallbacks at concrete inputs. -/
theorem format_token_derivation_correct_witness :
    _get_file_format (.str ("dir/file.usd")) = extAfterLastDot ("dir/file.usd") ∧
    _get_file_format (.str ("x/y.bgeo.sc")) = "bgeo.sc" ∧
    _get_file_format (.str ("nodots")) = "unknown" ∧
    _get_file_format (.int 3) = "unknown" := by
  refine ⟨?_, ?_, ?_, ?_⟩
  · exact format_token_derivation_correct.1 ("dir/file.usd") (by decide) (by decide)
  · exact format_token_derivation_correct.2.1 ("x/y.bgeo.sc") (by decide)
  · exact format_token_derivation_correct.2.2.1 ("nodots") (by decide)
  · exact format_token_derivation_correct.2.2.2.1 (.int 3) (fun s h => PyVal.noConfusion h)

/-- C8.  Store-failure policy: a `None` session handle (failed login) and
any query failure both make the resolver's public entry points
(`find_files`, `get_active_projects`) return the empty list; no exception
escapes (the model is total, mirroring the bare `except` handlers). -/
theorem store_failure_policy_correct :
    (∀ (pid : Int) (tc et : String), find_files none pid tc et = []) ∧
    (∀ (st : SgConnection) (pid : Int) (tc et : String) (e : String),
      st.findVersions (find_files_filters (some st) pid tc et) find_files_fields =
        .error e →
      find_files (some st) pid tc et = []) ∧
    get_active_projects none = [] ∧
    (∀ (st : SgConnection) (e : String),
      st.findProjects [.cond ("sg_status") "is" (.str ("Active"))] ["name", "id", "code"] =
        .error e →
      get_active_projects (some st) = []) := by
  refine ⟨?_, ?_, rfl, ?_⟩
  · intro pid tc et
    unfold find_files
    by_cases h : pid = 0
    · rw [if_pos h]
    · rw [if_neg h]
  · intro st pid tc et e herr
    unfold find_files
    by_cases h : pid = 0
    · rw [if_pos h]
    · rw [if_neg h]
      simp only [herr]
  · intro st e herr
    show (match st.findProjects [.cond ("sg_status") "is" (.str ("Active"))]
            ["name", "id", "code"] with
          | Except.error _ => ([] : List ProjectRec)
          | Except.ok ps => ps) = []
    rw [herr]

/-- Witness for C8 with a concrete always-failing store. -/
theorem store_failure_policy_correct_witness :
    find_files none 7 ("Asset/props") "Asset" = [] ∧
    find_files (some downConnection) 7 ("Asset/props") "Asset" = [] ∧
    get_active_projects none = [] ∧
    get_active_projects (some downConnection) = [] :=
  ⟨store_failure_policy_correct.1 7 ("Asset/props") "Asset",
   store_failure_policy_correct.2.1 downConnection 7 ("Asset/props") "Asset" "down" rfl,
   store_failure_policy_correct.2.2.1,
   store_failure_policy_correct.2.2.2 downConnection ("down") rfl⟩

/-- C1.  Latest selection: for every batch of categorized version records,
`selectLatest` (the fold `find_files` runs over its Python dict) retains,
per (entity type, entity id, category) key, exactly one record; the
retained record's `_v(\d+)`-parsed version number (0 when absent) is `≥`
that of every other same-key record, every earlier same-key record is
strictly smaller (so the first-encountered record is kept on exact ties),
retained keys are pairwise distinct, and every input key is represented. -/
theorem latest_selection_correct (vs : List CatVersion) :
    (∀ v ∈ selectLatest vs,
      (∃ l₁ l₂, vs = l₁ ++ v :: l₂ ∧
        (∀ w ∈ l₁, catKey w = catKey v →
          _get_version_number w.code < _get_version_number v.code) ∧
        (∀ w ∈ l₂, catKey w = catKey v →
          _get_version_number w.code ≤ _get_version_number v.code)) ∧
      (∀ w ∈ vs, catKey w = catKey v →
        _get_version_number w.code ≤ _get_version_number v.code)) ∧
    ((selectLatest vs).map catKey).Nodup ∧
    (∀ w ∈ vs, ∃ v ∈ selectLatest vs, catKey v = catKey w) := by
  obtain ⟨h1, h2, h3⟩ := selectLatest_inv vs
  refine ⟨?_, ?_, ?_⟩
  · intro v hv
    rcases List.mem_map.1 hv with ⟨e, he, hve⟩
    obtain ⟨hkey, l₁, l₂, hdec, hstrict, hweak⟩ := h1 e he
    subst hve
    constructor
    · refine ⟨l₁, l₂, hdec, ?_, ?_⟩
      · intro w hw hk
        exact hstrict w hw (by rw [hkey]; exact hk)
      · intro w hw hk
        exact hweak w hw (by rw [hkey]; exact hk)
    · intro w hw hk
      rw [hdec] at hw
      rcases List.mem_append.1 hw with hw1 | hw2
      · exact le_of_lt (hstrict w hw1 (by rw [hkey]; exact hk))
      · rcases List.mem_cons.1 hw2 with rfl | hw3
        · exact le_refl _
        · exact hweak w hw3 (by rw [hkey]; exact hk)
  · have hmapeq : (vs.foldl latestStep []).map Prod.fst =
        (selectLatest vs).map catKey := by
      unfold selectLatest
      rw [List.map_map]
      apply List.map_congr_left
      intro e he
      exact (h1 e he).1
    rw [← hmapeq]
    exact h2
  · intro w hw
    rcases h3 w hw with ⟨e, he, hke⟩
    refine ⟨e.2, List.mem_map_of_mem Prod.snd he, ?_⟩
    rw [← (h1 e he).1, hke]

/-- Witness for C1 on the spec's example: the retained `v003` record beats
every same-key record and retained keys are unique. -/
theorem latest_selection_correct_witness :
    (∀ w ∈ latestExample, catKey w = catKey latestRetained →
      _get_version_number w.code ≤ _get_version_number latestRetained.code) ∧
    ((selectLatest latestExample).map catKey).Nodup := by
  have hmem : latestRetained ∈ selectLatest latestExample := by
    rw [show selectLatest latestExample = [latestRetained] from rfl]
    exact List.mem_singleton_self _
  exact ⟨((latest_selection_correct latestExample).1 latestRetained hmem).2,
         (latest_selection_correct latestExample).2.1⟩

/-- Counterexample to C5 as stated.  The claim reads categorization as
"first match wins by the declared priority order of the token list":
for the Asset code `"shd_mdl_v001"` the declared order (`mdl` before
`shd`) would pick `"mdl"`, but the source's `re.search` with an
alternation returns the match at the leftmost position, `"shd"`. -/
theorem categorization_priority_counterexample :
    _categorize_version (some ⟨some ("Asset"), some 1⟩) "shd_mdl_v001" = some ("shd") ∧
    priorityTokenSearch assetTaskTokens (lowerStr ("shd_mdl_v001")).data = some ("mdl") ∧
    ("shd" : String) ≠ "mdl" := ⟨rfl, rfl, by decide⟩

/-- C5 as amended.  Categorization of an Asset (resp. Shot) record scans
the lowercased code with the fixed token list: the result is always set
(`some _`); when at least one token occurs as a substring the result is a
declared token whose first occurrence position is minimal among all
declared tokens (the leftmost match — declared order could only break
ties at one position); when no token occurs the result is the sentinel
`"asset_unknown"` (resp. `"shot_unknown"`), never absent. -/
theorem categorization_leftmost_amended :
    (∀ (ent : Option EntityRef) (code : String),
      (match ent with | some e => e.etype.getD ("") | none => "") = "Asset" →
      ∃ cat, _categorize_version ent code = some cat ∧
        ((∃ t ∈ assetTaskTokens, ∃ q, substrPos t.data (lowerStr code).data = some q) →
          cat ∈ assetTaskTokens ∧
          ∃ p, substrPos cat.data (lowerStr code).data = some p ∧
            ∀ t ∈ assetTaskTokens, ∀ q,
              substrPos t.data (lowerStr code).data = some q → p ≤ q) ∧
        ((∀ t ∈ assetTaskTokens, substrPos t.data (lowerStr code).data = none) →
          cat = "asset_unknown")) ∧
    (∀ (ent : Option EntityRef) (code : String),
      (match ent with | some e => e.etype.getD ("") | none => "") = "Shot" →
      ∃ cat, _categorize_version ent code = some cat ∧
        ((∃ t ∈ shotTaskTokens, ∃ q, substrPos t.data (lowerStr code).data = some q) →
          cat ∈ shotTaskTokens ∧
          ∃ p, substrPos cat.data (lowerStr code).data = some p ∧
            ∀ t ∈ shotTaskTokens, ∀ q,
              substrPos t.data (lowerStr code).data = some q → p ≤ q) ∧
        ((∀ t ∈ shotTaskTokens, substrPos t.data (lowerStr code).data = none) →
          cat = "shot_unknown")) := by
  constructor
  · intro ent code hAsset
    have hstep : _categorize_version ent code =
        some ((reSearchAlt assetTaskTokens (lowerStr code).data).getD ("asset_unknown")) := by
      unfold _categorize_version
      rw [hAsset]
      simp
    rcases hsearch : reSearchAlt assetTaskTokens (lowerStr code).data with _ | t
    · refine ⟨"asset_unknown", by rw [hstep, hsearch]; rfl, ?_, fun _ => rfl⟩
      rintro ⟨t, ht, q, hq⟩
      have hnone := reSearchAlt_none (by decide) hsearch t ht
      rw [hnone] at hq
      cases hq
    · obtain ⟨hmem, p, hp, hmin⟩ := reSearchAlt_some hsearch
      refine ⟨t, by rw [hstep, hsearch]; rfl, ?_, ?_⟩
      · intro _
        exact ⟨hmem, p, hp, hmin⟩
      · intro hall
        have := hall t hmem
        rw [this] at hp
        cases hp
  · intro ent code hShot
    have hstep : _categorize_version ent code =
        some ((reSearchAlt shotTaskTokens (lowerStr code).data).getD ("shot_unknown")) := by
      unfold _categorize_version
      rw [hShot]
      have hne : ("Shot" : String) ≠ "Asset" := by decide
      rw [if_neg hne]
      simp
    rcases hsearch : reSearchAlt shotTaskTokens (lowerStr code).data with _ | t
    · refine ⟨"shot_unknown", by rw [hstep, hsearch]; rfl, ?_, fun _ => rfl⟩
      rintro ⟨t, ht, q, hq⟩
      have hnone := reSearchAlt_none (by decide) hsearch t ht
      rw [hnone] at hq
      cases hq
    · obtain ⟨hmem, p, hp, hmin⟩ := reSearchAlt_some hsearch
      refine ⟨t, by rw [hstep, hsearch]; rfl, ?_, ?_⟩
      · intro _
        exact ⟨hmem, p, hp, hmin⟩
      · intro hall
        have := hall t hmem
        rw [this] at hp
        cases hp

/-- Witness for C5 (amended) at concrete Asset and Shot records. -/
theorem categorization_leftmost_amended_witness :
    (∃ cat, _categorize_version (some ⟨some ("Asset"), some 1⟩) "x_rig_v002" = some cat ∧
      ((∃ t ∈ assetTaskTokens, ∃ q,
          substrPos t.data (lowerStr ("x_rig_v002")).data = some q) →
        cat ∈ assetTaskTokens ∧
        ∃ p, substrPos cat.data (lowerStr ("x_rig_v002")).data = some p ∧
          ∀ t ∈ assetTaskTokens, ∀ q,
            substrPos t.data (lowerStr ("x_rig_v002")).data = some q → p ≤ q) ∧
      ((∀ t ∈ assetTaskTokens, substrPos t.data (lowerStr ("x_rig_v002")).data = none) →
        cat = "asset_unknown")) ∧
    (∃ cat, _categorize_version (some ⟨some ("Shot"), some 2⟩) "sq10_nothing" = some cat ∧
      ((∃ t ∈ shotTaskTokens, ∃ q,
          substrPos t.data (lowerStr ("sq10_nothing")).data = some q) →
        cat ∈ shotTaskTokens ∧
        ∃ p, substrPos cat.data (lowerStr ("sq10_nothing")).data = some p ∧
          ∀ t ∈ shotTaskTokens, ∀ q,
            substrPos t.data (lowerStr ("sq10_nothing")).data = some q → p ≤ q) ∧
      ((∀ t ∈ shotTaskTokens, substrPos t.data (lowerStr ("sq10_nothing")).data = none) →
        cat = "shot_unknown")) :=
  ⟨categorization_leftmost_amended.1 (some ⟨some ("Asset"), some 1⟩) "x_rig_v002" rfl,
   categorization_leftmost_amended.2 (some ⟨some ("Shot"), some 2⟩) "sq10_nothing" rfl⟩

/-- C7.  Display-code rewriting: every item shown in the version tier
carries its history record unchanged (so the underlying record's `code`
field is never modified), and its display label is the record's code
unless the first path of the chosen format contains an embedded
`v<digits>` segment and the code contains a `_v<digits>` segment, in
which case the label is the code with its first `_v<digits>` occurrence —
characterized by a sound leftmost decomposition of the code — replaced by
`_` followed by the path's segment. -/
theorem display_code_rewriting_correct (s : UIState)
    (h : s.current_version_history.isEmpty = false) :
    ∀ d v, (d, v) ∈ (_update_dependent_filters s).material_combo.items →
      v ∈ s.current_version_history ∧
      (v.paths.find?
          (fun p => _get_file_format (.str p) == s.render_combo.currentText) = none →
        d = v.code) ∧
      (∀ p, v.paths.find?
          (fun p => _get_file_format (.str p) == s.render_combo.currentText) = some p →
        _extract_version_from_path p = none → d = v.code) ∧
      (∀ p pv, v.paths.find?
          (fun p => _get_file_format (.str p) == s.render_combo.currentText) = some p →
        _extract_version_from_path p = some pv →
        splitFirstV v.code.data = none → d = v.code) ∧
      (∀ p pv a ds suf, v.paths.find?
          (fun p => _get_file_format (.str p) == s.render_combo.currentText) = some p →
        _extract_version_from_path p = some pv →
        splitFirstV v.code.data = some (a, ds, suf) →
        d = (⟨a ++ '_' :: (pv.data ++ suf)⟩ : String) ∧
        v.code.data = a ++ '_' :: 'v' :: (ds ++ suf) ∧
        ds ≠ [] ∧ ds.all Char.isDigit = true ∧
        (∀ c, suf.head? = some c → c.isDigit = false) ∧
        (∀ i, i < a.length → splitVAt (v.code.data.drop i) = none)) := by
  intro d v hmem
  obtain ⟨hv, _, hd, _⟩ := update_material_spec s h d v hmem
  unfold displayCode at hd
  refine ⟨hv, ?_, ?_, ?_, ?_⟩
  · intro hfind
    simp only [hfind] at hd
    exact hd
  · intro p hfind hext
    simp only [hfind, hext] at hd
    exact hd
  · intro p pv hfind hext hsplit
    simp only [hfind, hext] at hd
    unfold subFirstVersion at hd
    simp only [hsplit] at hd
    exact hd
  · intro p pv a ds suf hfind hext hsplit
    simp only [hfind, hext] at hd
    unfold subFirstVersion at hd
    simp only [hsplit] at hd
    obtain ⟨hdec, hne, hdig, hhead, hfirst⟩ := splitFirstV_some hsplit
    exact ⟨hd, hdec, hne, hdig, hhead, hfirst⟩

/-- Witness for C7: the single version-tier item of `witnessState` keeps
its record and is labelled `x_v003` — the stale code with the path's
version segment substituted into its first `_v<digits>` occurrence. -/
theorem display_code_rewriting_correct_witness :
    ("x_v003" : String) =
      (⟨['x'] ++ '_' :: (("v003" : String).data ++ [])⟩ : String) ∧
    witnessRecord.code.data = ['x'] ++ '_' :: 'v' :: (['0', '0', '1'] ++ []) ∧
    (['0', '0', '1'] : List Char) ≠ [] ∧
    (['0', '0', '1'] : List Char).all Char.isDigit = true ∧
    (∀ c, ([] : List Char).head? = some c → c.isDigit = false) ∧
    (∀ i, i < (['x'] : List Char).length →
      splitVAt (witnessRecord.code.data.drop i) = none) :=
  (display_code_rewriting_correct witnessState rfl ("x_v003") witnessRecord (by
      rw [show (_update_dependent_filters witnessState).material_combo.items =
        [("x_v003", witnessRecord)] from rfl]
      exact List.mem_singleton_self _)).2.2.2.2
    "p/y_v003.usd" "v003" ['x'] ['0', '0', '1'] [] rfl rfl rfl

/-- The shape of `_query_and_populate_all_filters` on a non-empty fetch:
first the format combo is rebuilt (restoring the previous format when
still offered), then the dependent tiers are recomputed, then the
previous version label is restored when still offered. -/
theorem populate_spec (s : UIState) (fetched : List RVersion)
    (h : fetched.isEmpty = false) :
    _query_and_populate_all_filters s fetched =
      (let rc0 := Combo.empty.addItems (availableFormats (fetched.map normalizeRecord))
       let rc := if s.render_combo.currentText != "" && rc0.hasText s.render_combo.currentText
                 then rc0.setCurrentText s.render_combo.currentText
                 else rc0
       let s2 := _update_dependent_filters
         { s with current_version_history := fetched.map normalizeRecord, render_combo := rc }
       { s2 with material_combo :=
           if s.material_combo.currentText != "" &&
              s2.material_combo.hasText s.material_combo.currentText
           then s2.material_combo.setCurrentText s.material_combo.currentText
           else s2.material_combo }) := by
  unfold _query_and_populate_all_filters
  simp only [h, Bool.false_eq_true, if_false]

/-- C3 as amended.  Sticky selection across a history change: when the
fetch is non-empty, (a) a previously chosen non-empty format that still
appears in the newly derived format list is re-selected; (b) when the
previous format is empty or no longer offered, the selection falls back
to the **first entry of the new sorted format list** (`""`, i.e. none,
only when the new format set is empty) — not to none as the claim stated;
(c) a previously chosen version label still offered in the rebuilt
version tier is re-selected. -/
theorem sticky_selection_amended (s : UIState) (fetched : List RVersion)
    (h : fetched.isEmpty = false) :
    (s.render_combo.currentText ≠ "" →
      s.render_combo.currentText ∈ availableFormats (fetched.map normalizeRecord) →
      (_query_and_populate_all_filters s fetched).render_combo.currentText =
        s.render_combo.currentText) ∧
    ((s.render_combo.currentText = "" ∨
      s.render_combo.currentText ∉ availableFormats (fetched.map normalizeRecord)) →
      (_query_and_populate_all_filters s fetched).render_combo.currentText =
        (availableFormats (fetched.map normalizeRecord)).headD ("")) ∧
    (s.material_combo.currentText ≠ "" →
      s.material_combo.currentText ∈
        (_query_and_populate_all_filters s fetched).material_combo.items.map Prod.fst →
      (_query_and_populate_all_filters s fetched).material_combo.currentText =
        s.material_combo.currentText) := by
  have hrender : (_query_and_populate_all_filters s fetched).render_combo =
      (if s.render_combo.currentText != "" &&
          (Combo.empty.addItems
            (availableFormats (fetched.map normalizeRecord))).hasText
              s.render_combo.currentText
       then (Combo.empty.addItems
              (availableFormats (fetched.map normalizeRecord))).setCurrentText
                s.render_combo.currentText
       else Combo.empty.addItems (availableFormats (fetched.map normalizeRecord))) := by
    rw [populate_spec s fetched h]
    dsimp only
    rw [(update_keeps_render_history _).1]
  have hmat : (_query_and_populate_all_filters s fetched).material_combo =
      (if s.material_combo.currentText != "" &&
          (_update_dependent_filters
            { s with current_version_history := fetched.map normalizeRecord,
                     render_combo :=
                       if s.render_combo.currentText != "" &&
                          (Combo.empty.addItems
                            (availableFormats (fetched.map normalizeRecord))).hasText
                              s.render_combo.currentText
                       then (Combo.empty.addItems
                              (availableFormats (fetched.map normalizeRecord))).setCurrentText
                                s.render_combo.currentText
                       else Combo.empty.addItems
                              (availableFormats (fetched.map normalizeRecord)) }).material_combo.hasText
            s.material_combo.currentText
       then (_update_dependent_filters
            { s with current_version_history := fetched.map normalizeRecord,
                     render_combo :=
                       if s.render_combo.currentText != "" &&
                          (Combo.empty.addItems
                            (availableFormats (fetched.map normalizeRecord))).hasText
                              s.render_combo.currentText
                       then (Combo.empty.addItems
                              (availableFormats (fetched.map normalizeRecord))).setCurrentText
                                s.render_combo.currentText
                       else Combo.empty.addItems
                              (availableFormats (fetched.map normalizeRecord)) }).material_combo.setCurrentText
              s.material_combo.currentText
       else (_update_dependent_filters
            { s with current_version_history := fetched.map normalizeRecord,
                     render_combo :=
                       if s.render_combo.currentText != "" &&
                          (Combo.empty.addItems
                            (availableFormats (fetched.map normalizeRecord))).hasText
                              s.render_combo.currentText
                       then (Combo.empty.addItems
                              (availableFormats (fetched.map normalizeRecord))).setCurrentText
                                s.render_combo.currentText
                       else Combo.empty.addItems
                              (availableFormats (fetched.map normalizeRecord)) }).material_combo) := by
    rw [populate_spec s fetched h]
  refine ⟨?_, ?_, ?_⟩
  · intro hne hmem
    have hbne : (s.render_combo.currentText != "") = true := bne_iff_ne.2 hne
    have hhas : (Combo.empty.addItems
        (availableFormats (fetched.map normalizeRecord))).hasText
          s.render_combo.currentText = true := by
      rw [combo_hasText_iff, Combo.items_addItems_empty]
      exact hmem
    rw [hrender, hbne, hhas]
    simp only [Bool.and_self, if_true]
    apply combo_currentText_setCurrentText
    rw [Combo.items_addItems_empty]
    exact hmem
  · intro hor
    have hcond : (s.render_combo.currentText != "" &&
        (Combo.empty.addItems
          (availableFormats (fetched.map normalizeRecord))).hasText
            s.render_combo.currentText) = false := by
      rcases hor with hemp | hnmem
      · rw [show (s.render_combo.currentText != "") = false from by
          simpa using hemp]
        rfl
      · have : (Combo.empty.addItems
            (availableFormats (fetched.map normalizeRecord))).hasText
              s.render_combo.currentText = false := by
          rw [show (Combo.empty.addItems
              (availableFormats (fetched.map normalizeRecord))).hasText
                s.render_combo.currentText
              = ((Combo.empty.addItems
                  (availableFormats (fetched.map normalizeRecord))).items.contains
                    s.render_combo.currentText) from rfl]
          rw [Combo.items_addItems_empty]
          simpa using hnmem
        rw [this]
        simp
    rw [hrender, hcond]
    simp only [Bool.false_eq_true, if_false]
    exact Combo.currentText_addItems_empty _
  · intro hne hmem
    rw [hmat] at hmem ⊢
    have hbne : (s.material_combo.currentText != "") = true := bne_iff_ne.2 hne
    by_cases hhas : (_update_dependent_filters
        { s with current_version_history := fetched.map normalizeRecord,
                 render_combo :=
                   if s.render_combo.currentText != "" &&
                      (Combo.empty.addItems
                        (availableFormats (fetched.map normalizeRecord))).hasText
                          s.render_combo.currentText
                   then (Combo.empty.addItems
                          (availableFormats (fetched.map normalizeRecord))).setCurrentText
                            s.render_combo.currentText
                   else Combo.empty.addItems
                          (availableFormats (fetched.map normalizeRecord)) }).material_combo.hasText
        s.material_combo.currentText = true
    · rw [hbne, hhas]
      simp only [Bool.and_self, if_true]
      apply dataCombo_currentText_setCurrentText
      rw [hbne, hhas] at hmem
      simp only [Bool.and_self, if_true] at hmem
      rwa [dataCombo_items_setCurrentText] at hmem
    · have hhas2 : (_update_dependent_filters
          { s with current_version_history := fetched.map normalizeRecord,
                   render_combo :=
                     if s.render_combo.currentText != "" &&
                        (Combo.empty.addItems
                          (availableFormats (fetched.map normalizeRecord))).hasText
                            s.render_combo.currentText
                     then (Combo.empty.addItems
                            (availableFormats (fetched.map normalizeRecord))).setCurrentText
                              s.render_combo.currentText
                     else Combo.empty.addItems
                            (availableFormats (fetched.map normalizeRecord)) }).material_combo.hasText
          s.material_combo.currentText = false := by
        simpa using hhas
      exfalso
      rw [hhas2] at hmem
      simp only [Bool.and_false, Bool.false_eq_true, if_false] at hmem
      rw [← dataCombo_hasText_iff] at hmem
      rw [hmem] at hhas2
      cases hhas2

/-- Counterexample to C3 as stated: with format `"usd"` chosen and a new
history whose format set lacks `"usd"`, the claim says the format
selection resets to none (current text `""`); instead the recomputation
leaves the first entry of the new sorted format list, `"abc"`, selected. -/
theorem sticky_format_reset_counterexample :
    stickyState.render_combo.currentText = "usd" ∧
    ("usd" : String) ∉ availableFormats (stickyFetched.map normalizeRecord) ∧
    (_query_and_populate_all_filters stickyState stickyFetched).render_combo.currentText
      = "abc" ∧
    ¬ (_query_and_populate_all_filters stickyState stickyFetched).render_combo.currentText
      = "" := by
  refine ⟨rfl, by decide, by decide, by decide⟩

/-- Witness for C3 (amended): with the same chosen format, a history that
still offers `"usd"` keeps it selected, and one that does not falls back
to the first entry of its sorted format list. -/
theorem sticky_selection_amended_witness :
    (_query_and_populate_all_filters stickyState stickyFetchedBoth).render_combo.currentText
      = stickyState.render_combo.currentText ∧
    (_query_and_populate_all_filters stickyState stickyFetched).render_combo.currentText
      = (availableFormats (stickyFetched.map normalizeRecord)).headD ("") :=
  ⟨(sticky_selection_amended stickyState stickyFetchedBoth rfl).1
      (by decide) (by decide),
   (sticky_selection_amended stickyState stickyFetched rfl).2.1 (Or.inr (by decide))⟩

/-- Field-level description of `_query_and_populate_all_filters` on a
non-empty fetch, in terms of the intermediate state `s1` whose history is
the normalized fetch and whose format combo has been rebuilt. -/
theorem populate_fields (s : UIState) (fetched : List RVersion)
    (h : fetched.isEmpty = false) :
    ∃ s1 : UIState,
      s1.current_version_history = fetched.map normalizeRecord ∧
      s1.render_combo =
        (if s.render_combo.currentText != "" &&
            (Combo.empty.addItems
              (availableFormats (fetched.map normalizeRecord))).hasText
                s.render_combo.currentText
         then (Combo.empty.addItems
                (availableFormats (fetched.map normalizeRecord))).setCurrentText
                  s.render_combo.currentText
         else Combo.empty.addItems (availableFormats (fetched.map normalizeRecord))) ∧
      (_query_and_populate_all_filters s fetched).current_version_history =
        s1.current_version_history ∧
      (_query_and_populate_all_filters s fetched).render_combo = s1.render_combo ∧
      (_query_and_populate_all_filters s fetched).asset_filter_visible =
        (_update_dependent_filters s1).asset_filter_visible ∧
      (_query_and_populate_all_filters s fetched).asset_filter_combo =
        (_update_dependent_filters s1).asset_filter_combo ∧
      (∀ v, (_query_and_populate_all_filters s fetched).material_combo.currentData = some v →
        v ∈ (_update_dependent_filters s1).material_combo.items.map Prod.snd) := by
  refine ⟨{ s with
      current_version_history := fetched.map normalizeRecord,
      render_combo :=
        if s.render_combo.currentText != "" &&
            (Combo.empty.addItems
              (availableFormats (fetched.map normalizeRecord))).hasText
                s.render_combo.currentText
        then (Combo.empty.addItems
               (availableFormats (fetched.map normalizeRecord))).setCurrentText
                 s.render_combo.currentText
        else Combo.empty.addItems (availableFormats (fetched.map normalizeRecord)) },
    rfl, rfl, ?_, ?_, ?_, ?_, ?_⟩
  · rw [populate_spec s fetched h]
    exact (update_keeps_render_history _).2
  · rw [populate_spec s fetched h]
    exact (update_keeps_render_history _).1
  · rw [populate_spec s fetched h]
  · rw [populate_spec s fetched h]
  · intro v hcd
    rw [populate_spec s fetched h] at hcd
    dsimp only at hcd
    have hmem := DataCombo.currentData_mem hcd
    by_cases hcond : (s.material_combo.currentText != "" &&
        (_update_dependent_filters
          { s with
            current_version_history := fetched.map normalizeRecord,
            render_combo :=
              if s.render_combo.currentText != "" &&
                  (Combo.empty.addItems
                    (availableFormats (fetched.map normalizeRecord))).hasText
                      s.render_combo.currentText
              then (Combo.empty.addItems
                     (availableFormats (fetched.map normalizeRecord))).setCurrentText
                       s.render_combo.currentText
              else Combo.empty.addItems
                     (availableFormats (fetched.map normalizeRecord)) }).material_combo.hasText
          s.material_combo.currentText) = true
    · rw [hcond] at hmem
      simp only [if_true] at hmem
      rwa [dataCombo_items_setCurrentText] at hmem
    · have hcond2 := Bool.eq_false_iff.mpr hcond
      rw [hcond2] at hmem
      simp only [Bool.false_eq_true, if_false] at hmem
      exact hmem

theorem mem_availableFormats (hist : List NVersion) (t : String) :
    t ∈ availableFormats hist ↔
      t ∈ hist.flatMap (fun v => v.paths.map (fun p => _get_file_format (.str p))) := by
  unfold availableFormats
  rw [mem_pySortBy, mem_dedupFirst]

/-- C6.  The cascade invariant holds after every recomputation: it is
established by `_query_and_populate_all_filters` for every prior state
and every fetched history, and preserved by `_update_dependent_filters`
(the handler re-run on every format or sub-asset change). -/
theorem cascade_invariant_correct :
    (∀ (s : UIState) (fetched : List RVersion),
      cascadeInv (_query_and_populate_all_filters s fetched)) ∧
    (∀ s : UIState, cascadeInv s → cascadeInv (_update_dependent_filters s)) := by
  constructor
  · intro s fetched
    by_cases hf : fetched.isEmpty
    · have hfe : fetched = [] := by
        cases fetched with
        | nil => rfl
        | cons a as => cases hf
      subst hfe
      exact ⟨Or.inl rfl, trivial⟩
    · have hf2 : fetched.isEmpty = false := Bool.eq_false_iff.mpr hf
      obtain ⟨s1, h1hist, h1rc, hoh, hor, hov, hoa, hocd⟩ := populate_fields s fetched hf2
      have hs1emp : s1.current_version_history.isEmpty = false := by
        rw [h1hist]
        cases fetched with
        | nil => cases hf2
        | cons a as => rfl
      constructor
      · rw [hor, hoh]
        by_cases hcond : (s.render_combo.currentText != "" &&
            (Combo.empty.addItems
              (availableFormats (fetched.map normalizeRecord))).hasText
                s.render_combo.currentText) = true
        · rw [h1rc, hcond]
          simp only [if_true]
          have hcond3 := hcond
          rw [Bool.and_eq_true] at hcond3
          have hhas := hcond3.2
          rw [combo_hasText_iff, Combo.items_addItems_empty] at hhas
          rw [combo_currentText_setCurrentText (by
            rw [Combo.items_addItems_empty]; exact hhas)]
          rw [h1hist]
          exact Or.inr ((mem_availableFormats _ _).1 hhas)
        · have hcond2 := Bool.eq_false_iff.mpr hcond
          rw [h1rc, hcond2]
          simp only [Bool.false_eq_true, if_false]
          rw [Combo.currentText_addItems_empty]
          cases hfm : availableFormats (fetched.map normalizeRecord) with
          | nil => exact Or.inl rfl
          | cons fm fms =>
            refine Or.inr ?_
            rw [h1hist]
            apply (mem_availableFormats _ _).1
            rw [hfm]
            exact List.mem_cons_self _ _
      · cases hcd : (_query_and_populate_all_filters s fetched).material_combo.currentData with
        | none => exact trivial
        | some v =>
          show v ∈ (_query_and_populate_all_filters s fetched).current_version_history ∧
            hasFormat (_query_and_populate_all_filters s fetched).render_combo.currentText v
              = true ∧
            ((_query_and_populate_all_filters s fetched).asset_filter_visible = true →
              ((_query_and_populate_all_filters s fetched).asset_filter_combo.currentText
                  = "" ∨
               ((_query_and_populate_all_filters s fetched).asset_filter_combo.currentText
                  = NO_ASSET_FILTER_TAG ∧ v.asset_name = none) ∨
               v.asset_name =
                 some (_query_and_populate_all_filters s fetched).asset_filter_combo.currentText))
          have hv := hocd v hcd
          rcases List.mem_map.1 hv with ⟨⟨d, v2⟩, hpair, hv2⟩
          have hv2e : v2 = v := hv2
          subst hv2e
          obtain ⟨hm1, hm2, _, hm4⟩ := update_material_spec s1 hs1emp d v2 hpair
          refine ⟨by rw [hoh]; exact hm1, by rw [hor]; exact hm2, ?_⟩
          intro hvis
          rw [hov] at hvis
          rw [hoa]
          exact hm4 hvis
  · intro s hs
    by_cases hemp : s.current_version_history.isEmpty
    · have hid : _update_dependent_filters s = s := by
        unfold _update_dependent_filters
        rw [if_pos hemp]
      rw [hid]
      exact hs
    · have hemp2 : s.current_version_history.isEmpty = false := Bool.eq_false_iff.mpr hemp
      obtain ⟨hrc, hhist⟩ := update_keeps_render_history s
      constructor
      · rw [hrc, hhist]
        exact hs.1
      · cases hcd : (_update_dependent_filters s).material_combo.currentData with
        | none => exact trivial
        | some v =>
          show v ∈ (_update_dependent_filters s).current_version_history ∧
            hasFormat (_update_dependent_filters s).render_combo.currentText v = true ∧
            ((_update_dependent_filters s).asset_filter_visible = true →
              ((_update_dependent_filters s).asset_filter_combo.currentText = "" ∨
               ((_update_dependent_filters s).asset_filter_combo.currentText
                  = NO_ASSET_FILTER_TAG ∧ v.asset_name = none) ∨
               v.asset_name =
                 some (_update_dependent_filters s).asset_filter_combo.currentText))
          have hm := DataCombo.currentData_mem hcd
          rcases List.mem_map.1 hm with ⟨⟨d, v2⟩, hpair, hv2⟩
          have hv2e : v2 = v := hv2
          subst hv2e
          obtain ⟨hm1, hm2, _, hm4⟩ := update_material_spec s hemp2 d v2 hpair
          exact ⟨by rw [hhist]; exact hm1, by rw [hrc]; exact hm2, hm4⟩

/-- Witness for C6: the invariant established at a concrete populate, and
preserved from a concretely verified state (the cleared one). -/
theorem cascade_invariant_correct_witness :
    cascadeInv (_query_and_populate_all_filters stickyState stickyFetchedBoth) ∧
    cascadeInv (_update_dependent_filters
      (_handle_cancel_selection stickyState)) :=
  ⟨cascade_invariant_correct.1 stickyState stickyFetchedBoth,
   cascade_invariant_correct.2 (_handle_cancel_selection stickyState)
     ⟨Or.inl rfl, trivial⟩⟩

end Shotgun
